import Mathlib

/-!
Verification development for the damascene process simulator
(`docs/03-cmos-beol/damascene_process_simulator.py`) and the Deal-Grove
oxide growth analyzer (`simulation-examples/python/oxide_growth_model_3D.py`).

The Python 2D material grid `materials[y, x]` (row = height, column = lateral
position) is embedded column-major as `List (List Material)`: `grid[x][y]`,
with `y = 0` the bottom of the wafer.  Floating point quantities are embedded
as exact rationals (`ℚ`); `np.random.random()` draws are an explicit stream
`ℕ → ℚ` together with a cursor counting how many draws were consumed.
-/

set_option maxHeartbeats 1000000

namespace Damascene

/-- Material types in the damascene process (`class Material(Enum)`). -/
inductive Material where
  | VACUUM
  | SILICON
  | OXIDE
  | NITRIDE
  | BARRIER
  | COPPER_SEED
  | COPPER
  | PHOTORESIST
  deriving DecidableEq, Repr

/-- The 2D material grid, column major: `grid[x][y]`, `y = 0` at the bottom. -/
abbrev Grid := List (List Material)

/-- Python `int(...)` applied to a float: truncation toward zero. -/
def pyInt (q : ℚ) : ℤ := if 0 ≤ q then ⌊q⌋ else ⌈q⌉

/-- Python `int(...)` used as a loop bound `range(n)`: a negative bound gives
an empty range, so we truncate to `ℕ`. -/
def pyIntNat (q : ℚ) : ℕ := (pyInt q).toNat

/-- Read the cell `materials[y, x]`; out of range reads return `VACUUM`
(they never occur in the guarded source code, see the C7 theorem). -/
def getCell (g : Grid) (x y : ℕ) : Material :=
  (g.getD x []).getD y Material.VACUUM

/-- Write the cell `materials[y, x] = m`; out of range writes are no-ops. -/
def setCell (g : Grid) (x y : ℕ) (m : Material) : Grid :=
  g.set x ((g.getD x []).set y m)

/-- Largest index of the list satisfying `p` — embeds
`np.where(p(column))[0][-1]`, which is how the source finds surfaces. -/
def lastIdxWhere (p : Material → Bool) : List Material → Option ℕ
  | [] => none
  | m :: rest =>
    match lastIdxWhere p rest with
    | some s => some (s + 1)
    | none => if p m then some 0 else none

/-- `np.where(column != VACUUM)[0][-1]`: topmost non-vacuum cell index. -/
def surfaceIdx? (col : List Material) : Option ℕ :=
  lastIdxWhere (fun m => decide (m ≠ Material.VACUUM)) col

/-- Python `range(a, b)` as a list of naturals. -/
def rangeFromTo (a b : ℕ) : List ℕ :=
  (List.range (b - a)).map (· + a)

/-- `np.clip(q, lo, hi)`. -/
def npClip (q lo hi : ℚ) : ℚ := max lo (min hi q)

/-- `np.mean` of a 1D array (0 on the empty array; the source never takes
the mean of an empty array). -/
def npMean (l : List ℚ) : ℚ := l.sum / l.length

/-- `np.max` of a 1D array (head-seeded fold; the source never reduces an
empty array). -/
def npMax (l : List ℚ) : ℚ := l.foldl max (l.headD 0)

/-- `np.min` of a 1D array. -/
def npMin (l : List ℚ) : ℚ := l.foldl min (l.headD 0)

/-- Population variance, `np.std(l) ^ 2`.  The source compares
`np.std(surface) < c` with `c > 0`; since `np.std` is the nonnegative square
root of this quantity, that comparison is equivalent to
`npVariance surface < c ^ 2`, which is how the plating loop guard is
embedded below. -/
def npVariance (l : List ℚ) : ℚ :=
  ((l.map (fun h => (h - npMean l) ^ 2)).sum) / l.length

/-- `@dataclass class ProcessParameters` — all defaults carried as exact
rationals. -/
structure ProcessParameters where
  wafer_width : ℚ := 2.0e-6
  wafer_height : ℚ := 1.5e-6
  bottom_oxide : ℚ := 500e-9
  nitride_etch_stop : ℚ := 50e-9
  top_oxide : ℚ := 500e-9
  via_width : ℚ := 150e-9
  trench_width : ℚ := 300e-9
  trench_depth : ℚ := 300e-9
  etch_rate_oxide : ℚ := 100e-9
  etch_rate_nitride : ℚ := 5e-9
  etch_anisotropy : ℚ := 0.95
  barrier_thickness : ℚ := 10e-9
  barrier_step_coverage : ℚ := 0.7
  seed_thickness : ℚ := 50e-9
  seed_step_coverage : ℚ := 0.6
  plating_rate_base : ℚ := 50e-9
  plating_enhancement : ℚ := 5.0
  diffusion_length : ℚ := 100e-9
  cmp_removal_rate : ℚ := 200e-9
  cmp_selectivity_cu : ℚ := 1.0
  cmp_selectivity_barrier : ℚ := 0.5
  cmp_selectivity_oxide : ℚ := 0.1
  dishing_factor : ℚ := 0.05

/-- `ProcessParameters()` with all defaults. -/
def defaultParams : ProcessParameters := {}

/-- The grid is a well-formed `res × res` matrix. -/
def WF (res : ℕ) (g : Grid) : Prop :=
  g.length = res ∧ ∀ c ∈ g, c.length = res

/-- `class DamasceneWafer` — the cross-section state. -/
structure DamasceneWafer where
  params : ProcessParameters
  resolution : ℕ
  dx : ℚ
  dy : ℚ
  materials : Grid
  current_step : String
  time : ℚ

/-- One downward anisotropic etch pass in column `x`
(the `for dy in range(etch_pixels)` loop of `PlasmaEtcher.etch_feature`).
`dy` is the current offset below `surface`, `n` the remaining iterations,
`k` the random-stream cursor and `d` the running `current_depth`.
The `surface < dy` test embeds `if y < 0: break`. -/
def etchDown (rng : ℕ → ℚ) (sel : ℚ) (target : Material) (dyLen : ℚ)
    (x surface : ℕ) : ℕ → ℕ → Grid → ℕ → ℚ → Grid × ℕ × ℚ
  | _, 0, g, k, d => (g, k, d)
  | dy, n + 1, g, k, d =>
    if surface < dy then (g, k, d)
    else
      let y := surface - dy
      let m := getCell g x y
      if m = Material.NITRIDE then
        if sel < rng k then
          etchDown rng sel target dyLen x surface (dy + 1) n
            (setCell g x y Material.VACUUM) (k + 1) d
        else
          etchDown rng sel target dyLen x surface (dy + 1) n g (k + 1) d
      else if m = target ∨ m = Material.OXIDE then
        etchDown rng sel target dyLen x surface (dy + 1) n
          (setCell g x y Material.VACUUM) k (max d ((dy : ℚ) * dyLen))
      else
        etchDown rng sel target dyLen x surface (dy + 1) n g k d

/-- One lateral etch pass (`for dy in range(lateral_etch)` on one side):
removes `target` material at column `xw`, rows `surface - dy`.  The
`dy ≤ surface` test embeds `if y >= 0`. -/
def etchLateral (target : Material) (xw surface : ℕ) : ℕ → ℕ → Grid → Grid
  | _, 0, g => g
  | dy, n + 1, g =>
    let g' :=
      if dy ≤ surface ∧ getCell g xw (surface - dy) = target then
        setCell g xw (surface - dy) Material.VACUUM
      else g
    etchLateral target xw surface (dy + 1) n g'

/-- Process one window column of `PlasmaEtcher.etch_feature`: the vertical
anisotropic etch followed by the slight lateral etch on both sides. -/
def etchColumn (rng : ℕ → ℚ) (sel : ℚ) (target : Material) (dyLen : ℚ)
    (res lateral_etch etch_pixels : ℕ) (st : Grid × ℕ × ℚ) (x : ℕ) :
    Grid × ℕ × ℚ :=
  match surfaceIdx? (st.1.getD x []) with
  | none => st
  | some surface =>
    let r := etchDown rng sel target dyLen x surface 0 etch_pixels st.1 st.2.1 st.2.2
    let g2 :=
      if 0 < lateral_etch ∧ lateral_etch ≤ surface then
        let gl :=
          if lateral_etch ≤ x then
            etchLateral target (x - lateral_etch) surface 0 lateral_etch r.1
          else r.1
        if x + lateral_etch < res then
          etchLateral target (x + lateral_etch) surface 0 lateral_etch gl
        else gl
      else r.1
    (g2, r.2.1, r.2.2)

/-- `start_x = max(0, center_idx - width_idx // 2)` of `etch_feature`
(Python `//` is floor division). -/
def etchStartX (dx center_x width : ℚ) : ℕ :=
  (max 0 (pyInt (center_x / dx) - Int.fdiv (pyInt (width / dx)) 2)).toNat

/-- `end_x = min(resolution, center_idx + width_idx // 2)` of `etch_feature`. -/
def etchEndX (res : ℕ) (dx center_x width : ℚ) : ℕ :=
  (min (res : ℤ) (pyInt (center_x / dx) + Int.fdiv (pyInt (width / dx)) 2)).toNat

/-- The body of `PlasmaEtcher.etch_feature` on a raw grid: returns the final
grid, the advanced random-stream cursor, and the internal `current_depth`
accumulator (from which the `finished` flag is computed). -/
def etchFeatureRun (p : ProcessParameters) (res : ℕ) (dx dyLen : ℚ)
    (g : Grid) (rng : ℕ → ℚ) (k : ℕ) (center_x width dt : ℚ)
    (target : Material) : Grid × ℕ × ℚ :=
  let er := if target = Material.OXIDE then p.etch_rate_oxide else p.etch_rate_nitride
  let sel : ℚ := if target = Material.OXIDE then 1.0 else 0.05
  let etch_pixelsZ := pyInt (er * dt / dyLen)
  let etch_pixels := etch_pixelsZ.toNat
  let lateral_etch := (pyInt ((etch_pixelsZ : ℚ) * (1 - p.etch_anisotropy))).toNat
  (rangeFromTo (etchStartX dx center_x width) (etchEndX res dx center_x width)).foldl
    (etchColumn rng sel target dyLen res lateral_etch etch_pixels) (g, k, 0)

/-- `PlasmaEtcher.etch_feature`: updated wafer, advanced random cursor, and
the returned `finished` boolean (`current_depth >= target_depth * 0.95`). -/
def PlasmaEtcher.etch_feature (w : DamasceneWafer) (rng : ℕ → ℚ) (k : ℕ)
    (center_x width target_depth dt : ℚ) (target : Material) :
    DamasceneWafer × ℕ × Bool :=
  let r := etchFeatureRun w.params w.resolution w.dx w.dy w.materials rng k
    center_x width dt target
  ({ w with materials := r.1 }, r.2.1, decide (target_depth * 0.95 ≤ r.2.2))

/-- Claim-side observable for C2: true when some cell in the window columns
`[sx, ex)` that held material before the call is vacuum after it and lies at
least `bound` below its column's pre-call surface (depth in physical units,
`(s - y) * dyLen`).  "The deepest removal in the window reached `bound`" is
exactly this, since the deepest removal is the maximum over removed cells. -/
def removalReachedB (pre post : Grid) (sx ex : ℕ) (dyLen bound : ℚ) : Bool :=
  (rangeFromTo sx ex).any fun x =>
    match surfaceIdx? (pre.getD x []) with
    | none => false
    | some s =>
      (List.range (s + 1)).any fun y =>
        decide (getCell pre x y ≠ Material.VACUUM) &&
        decide (getCell post x y = Material.VACUUM) &&
        decide (bound ≤ ((s : ℚ) - (y : ℚ)) * dyLen)

/-- A constant random stream (never consulted in oxide-mode etching of
vacuum/silicon/oxide cells). -/
def rng0 : ℕ → ℚ := fun _ => 0

/-- Concrete wafer for the C2 counterexample: a 4×4 grid whose column 3
holds oxide below a silicon cap.  With `etch_anisotropy = 0` the lateral
etch from column 1 removes that oxide (a removal of depth 2 below column
3's surface) while the vertical passes remove nothing, so `current_depth`
stays 0. -/
def wC2cex : DamasceneWafer :=
  { params := { etch_rate_oxide := 2, etch_anisotropy := 0 }
    resolution := 4
    dx := 1
    dy := 1
    materials :=
      [[Material.SILICON, Material.VACUUM, Material.VACUUM, Material.VACUUM],
       [Material.SILICON, Material.SILICON, Material.SILICON, Material.VACUUM],
       [Material.SILICON, Material.SILICON, Material.SILICON, Material.VACUUM],
       [Material.SILICON, Material.OXIDE, Material.OXIDE, Material.SILICON]]
    current_step := "Initial"
    time := 0 }

/-- Concrete wafer for the C2 witness: one all-oxide window column. -/
def wC2wit : DamasceneWafer :=
  { params := { etch_rate_oxide := 3, etch_anisotropy := 1 }
    resolution := 3
    dx := 1
    dy := 1
    materials := [[Material.OXIDE, Material.OXIDE, Material.OXIDE]]
    current_step := "Initial"
    time := 0 }

/-! ### Bounds-checked instrumentation of the etcher (for C7)

`etch_feature` accesses `self.wafer.materials` with scalar indices; an index
`≥ resolution` would raise an `IndexError` in numpy (and every index the
embedding produces is a natural number, so numpy's negative-index wrapping
cannot arise — the `y < 0` / `>= 0` guards are taken verbatim from the
source).  The `?`-functions below return `none` on any out-of-range access
and otherwise compute exactly the value of the total functions above. -/

/-- Checked read of `materials[y, x]`. -/
def getCellChk (g : Grid) (x y : ℕ) : Option Material :=
  (g.get? x).bind fun col => col.get? y

/-- Checked write of `materials[y, x] = m`. -/
def setCellChk (g : Grid) (x y : ℕ) (m : Material) : Option Grid :=
  if x < g.length ∧ y < (g.getD x []).length then some (setCell g x y m) else none

/-- Bounds-checked mirror of `etchDown`. -/
def etchDownChk (rng : ℕ → ℚ) (sel : ℚ) (target : Material) (dyLen : ℚ)
    (x surface : ℕ) : ℕ → ℕ → Grid → ℕ → ℚ → Option (Grid × ℕ × ℚ)
  | _, 0, g, k, d => some (g, k, d)
  | dy, n + 1, g, k, d =>
    if surface < dy then some (g, k, d)
    else
      let y := surface - dy
      match getCellChk g x y with
      | none => none
      | some m =>
        if m = Material.NITRIDE then
          if sel < rng k then
            match setCellChk g x y Material.VACUUM with
            | none => none
            | some g' => etchDownChk rng sel target dyLen x surface (dy + 1) n g' (k + 1) d
          else etchDownChk rng sel target dyLen x surface (dy + 1) n g (k + 1) d
        else if m = target ∨ m = Material.OXIDE then
          match setCellChk g x y Material.VACUUM with
          | none => none
          | some g' =>
            etchDownChk rng sel target dyLen x surface (dy + 1) n g' k
              (max d ((dy : ℚ) * dyLen))
        else etchDownChk rng sel target dyLen x surface (dy + 1) n g k d

/-- Bounds-checked mirror of `etchLateral` (the `y >= 0` short-circuit guard
precedes the read, exactly as in the source). -/
def etchLateralChk (target : Material) (xw surface : ℕ) :
    ℕ → ℕ → Grid → Option Grid
  | _, 0, g => some g
  | dy, n + 1, g =>
    if dy ≤ surface then
      match getCellChk g xw (surface - dy) with
      | none => none
      | some m =>
        if m = target then
          match setCellChk g xw (surface - dy) Material.VACUUM with
          | none => none
          | some g' => etchLateralChk target xw surface (dy + 1) n g'
        else etchLateralChk target xw surface (dy + 1) n g
    else etchLateralChk target xw surface (dy + 1) n g

/-- Bounds-checked mirror of `etchColumn` (the column read `materials[:, x]`
is checked as well). -/
def etchColumnChk (rng : ℕ → ℚ) (sel : ℚ) (target : Material) (dyLen : ℚ)
    (res lateral_etch etch_pixels : ℕ) (st : Grid × ℕ × ℚ) (x : ℕ) :
    Option (Grid × ℕ × ℚ) :=
  match st.1.get? x with
  | none => none
  | some col =>
    match surfaceIdx? col with
    | none => some st
    | some surface =>
      match etchDownChk rng sel target dyLen x surface 0 etch_pixels st.1 st.2.1 st.2.2 with
      | none => none
      | some r =>
        let gl? :=
          if 0 < lateral_etch ∧ lateral_etch ≤ surface then
            (if lateral_etch ≤ x then
                etchLateralChk target (x - lateral_etch) surface 0 lateral_etch r.1
              else some r.1).bind fun gl =>
              if x + lateral_etch < res then
                etchLateralChk target (x + lateral_etch) surface 0 lateral_etch gl
              else some gl
          else some r.1
        gl?.map fun g2 => (g2, r.2.1, r.2.2)

/-- Bounds-checked mirror of `etchFeatureRun`. -/
def etchFeatureRunChk (p : ProcessParameters) (res : ℕ) (dx dyLen : ℚ)
    (g : Grid) (rng : ℕ → ℚ) (k : ℕ) (center_x width dt : ℚ)
    (target : Material) : Option (Grid × ℕ × ℚ) :=
  let er := if target = Material.OXIDE then p.etch_rate_oxide else p.etch_rate_nitride
  let sel : ℚ := if target = Material.OXIDE then 1.0 else 0.05
  let etch_pixelsZ := pyInt (er * dt / dyLen)
  let etch_pixels := etch_pixelsZ.toNat
  let lateral_etch := (pyInt ((etch_pixelsZ : ℚ) * (1 - p.etch_anisotropy))).toNat
  (rangeFromTo (etchStartX dx center_x width) (etchEndX res dx center_x width)).foldlM
    (etchColumnChk rng sel target dyLen res lateral_etch etch_pixels) (g, k, 0)

/-- Bounds-checked mirror of `PlasmaEtcher.etch_feature`. -/
def PlasmaEtcher.etchFeatureChecked (w : DamasceneWafer) (rng : ℕ → ℚ) (k : ℕ)
    (center_x width target_depth dt : ℚ) (target : Material) :
    Option (DamasceneWafer × ℕ × Bool) :=
  (etchFeatureRunChk w.params w.resolution w.dx w.dy w.materials rng k
    center_x width dt target).map fun r =>
    ({ w with materials := r.1 }, r.2.1, decide (target_depth * 0.95 ≤ r.2.2))

/-! ### `PVDDepositor.deposit_conformal` -/

/-- The top-surface pass of `deposit_conformal`
(`for dy in range(target_pixels)`): writes `materials[surface+dy+1, x]`
when in range. -/
def depositTopFill (material : Material) (res x surface : ℕ) :
    ℕ → ℕ → Grid → Grid
  | _, 0, g => g
  | dy, n + 1, g =>
    let y := surface + dy + 1
    let g' := if y < res then setCell g x y material else g
    depositTopFill material res x surface (dy + 1) n g'

/-- One sidewall pass of `deposit_conformal`
(`for dy in range(min(sidewall_thickness, ...))`): writes
`materials[surface+dy, x]` when that cell is vacuum. -/
def depositSideFill (material : Material) (x surface : ℕ) :
    ℕ → ℕ → Grid → Grid
  | _, 0, g => g
  | dy, n + 1, g =>
    let y := surface + dy
    let g' :=
      if getCell g x y = Material.VACUUM then setCell g x y material else g
    depositSideFill material x surface (dy + 1) n g'

/-- One column of `deposit_conformal`: top-surface deposit, then (behind the
`surface < resolution - 10` gate) the left and right sidewall passes.
`sidewall_thickness` (`int(target_pixels * step_coverage)`, loop-invariant in
the source, hoisted here) bounds the sidewall extent together with the local
height discontinuity. -/
def depositColumn (material : Material) (res target_pixels sidewall_thickness : ℕ)
    (g : Grid) (x : ℕ) : Grid :=
  match surfaceIdx? (g.getD x []) with
  | none => g
  | some surface =>
    let g1 := depositTopFill material res x surface 0 target_pixels g
    if surface < res - 10 then
      let g2 :=
        if 0 < x then
          match surfaceIdx? (g1.getD (x - 1) []) with
          | some ls =>
            if surface < ls then
              depositSideFill material x surface 0
                (min sidewall_thickness (ls - surface)) g1
            else g1
          | none => g1
        else g1
      if x < res - 1 then
        match surfaceIdx? (g2.getD (x + 1) []) with
        | some rs =>
          if surface < rs then
            depositSideFill material x surface 0
              (min sidewall_thickness (rs - surface)) g2
          else g2
        | none => g2
      else g2
    else g1

/-- `PVDDepositor.deposit_conformal`. -/
def PVDDepositor.deposit_conformal (w : DamasceneWafer) (material : Material)
    (thickness step_coverage : ℚ) : DamasceneWafer :=
  let target_pixels := pyIntNat (thickness / w.dy)
  let sidewall_thickness := pyIntNat ((target_pixels : ℚ) * step_coverage)
  { w with
    materials := (List.range w.resolution).foldl
      (depositColumn material w.resolution target_pixels sidewall_thickness)
      w.materials }

/-- The top-surface-only part of one `deposit_conformal` column (the code
with the sidewall section removed); used to state what the sidewall section
actually contributes. -/
def depositColumnTop (material : Material) (res target_pixels : ℕ)
    (g : Grid) (x : ℕ) : Grid :=
  match surfaceIdx? (g.getD x []) with
  | none => g
  | some surface => depositTopFill material res x surface 0 target_pixels g

/-- `deposit_conformal` with the sidewall section removed. -/
def depositTopOnly (w : DamasceneWafer) (material : Material)
    (thickness : ℚ) : DamasceneWafer :=
  let target_pixels := pyIntNat (thickness / w.dy)
  { w with
    materials := (List.range w.resolution).foldl
      (depositColumnTop material w.resolution target_pixels) w.materials }

/-- Concrete wafer for C4: a 16×16 grid with a deep trench at column 5
(surrounded by tall columns), so the sidewall branch of `deposit_conformal`
is actually reached. -/
def wC4 : DamasceneWafer :=
  { params := {}
    resolution := 16
    dx := 1
    dy := 1
    materials :=
      (List.range 16).map fun x =>
        if x = 5 then
          (List.range 16).map fun y =>
            if y = 0 then Material.SILICON else Material.VACUUM
        else
          (List.range 16).map fun y =>
            if y < 14 then Material.SILICON else Material.VACUUM
    current_step := "Initial"
    time := 0 }

/-! ### Surface topography and the CMP polisher -/

/-- `DamasceneWafer.get_surface_height`: per-column topmost non-vacuum cell
index times `dy` (0 for an all-vacuum column). -/
def DamasceneWafer.get_surface_height (w : DamasceneWafer) : List ℚ :=
  (List.range w.resolution).map fun i =>
    match surfaceIdx? (w.materials.getD i []) with
    | some s => (s : ℚ) * w.dy
    | none => 0

/-- `CMPPolisher.is_planar(tolerance)`: surface max-min variation strictly
below tolerance.  A pure function of the wafer (the source only reads). -/
def CMPPolisher.is_planar (w : DamasceneWafer) (tolerance : ℚ) : Bool :=
  let surface_heights := w.get_surface_height
  decide (npMax surface_heights - npMin surface_heights < tolerance)

/-- Consecutive-copper count to the left of `(y, x)`
(`for dx in range(1, 50)` with boundary/material breaks). -/
def copperRunLeft (g : Grid) (x y : ℕ) : ℕ → ℕ → ℕ
  | _, 0 => 0
  | dx, n + 1 =>
    if dx ≤ x ∧ getCell g (x - dx) y = Material.COPPER then
      1 + copperRunLeft g x y (dx + 1) n
    else 0

/-- Consecutive-copper count to the right of `(y, x)`. -/
def copperRunRight (g : Grid) (res x y : ℕ) : ℕ → ℕ → ℕ
  | _, 0 => 0
  | dx, n + 1 =>
    if x + dx < res ∧ getCell g (x + dx) y = Material.COPPER then
      1 + copperRunRight g res x y (dx + 1) n
    else 0

/-- `CMPPolisher._calculate_width_factor`. -/
def widthFactor (g : Grid) (res x y : ℕ) : ℚ :=
  let width := 1 + copperRunLeft g x y 1 49 + copperRunRight g res x y 1 49
  min ((width : ℚ) / 50) 1

/-- The removal loop of `CMPPolisher.polish_step`
(`for dy in range(removal_pixels): if surface - dy >= 0: ...`). -/
def cmpRemove (x surface : ℕ) : ℕ → ℕ → Grid → Grid
  | _, 0, g => g
  | dy, n + 1, g =>
    let g' :=
      if dy ≤ surface then setCell g x (surface - dy) Material.VACUUM else g
    cmpRemove x surface (dy + 1) n g'

/-- One column of `CMPPolisher.polish_step`: material-dependent selectivity
(with dishing boost for copper), pressure-boosted removal rate, removal. -/
def polishColumn (p : ProcessParameters) (res : ℕ) (δ dt : ℚ)
    (pressure : List ℚ) (g : Grid) (x : ℕ) : Grid :=
  match surfaceIdx? (g.getD x []) with
  | none => g
  | some surface =>
    let material := getCell g x surface
    let selectivity : ℚ :=
      if material = Material.COPPER then
        p.cmp_selectivity_cu * (1 + p.dishing_factor * widthFactor g res x surface)
      else if material = Material.BARRIER then p.cmp_selectivity_barrier
      else if material = Material.OXIDE then p.cmp_selectivity_oxide
      else 0.5
    let removal_rate := p.cmp_removal_rate * selectivity * (1 + pressure.getD x 0)
    let removal_pixels := pyIntNat (removal_rate * dt / δ)
    cmpRemove x surface 0 removal_pixels g

/-- `CMPPolisher.polish_step`: pressure from topography, then per-column
selective removal. -/
def CMPPolisher.polish_step (w : DamasceneWafer) (dt : ℚ) : DamasceneWafer :=
  let surface_heights := w.get_surface_height
  let mean_height := npMean surface_heights
  let pressure0 := surface_heights.map fun h => max (h - mean_height) 0
  let pressure := pressure0.map fun q => q / (npMax pressure0 + 1e-9)
  { w with
    materials := (List.range w.resolution).foldl
      (polishColumn w.params w.resolution w.dy dt pressure) w.materials }

/-! ### The electroplater -/

/-- `class Electroplater`'s additive concentration fields, column major
(`field[x][y]` embeds `field[y, x]`). -/
structure Electroplater where
  accelerator : List (List ℚ)
  suppressor : List (List ℚ)

/-- `Electroplater.__init__`: accelerator all zeros, suppressor all ones. -/
def Electroplater.init (res : ℕ) : Electroplater :=
  { accelerator := List.replicate res (List.replicate res 0)
    suppressor := List.replicate res (List.replicate res 1) }

/-- Read an additive field entry `field[y, x]` (with the field's initial
value as the out-of-range default; in-range in all source-reachable runs). -/
def qGet (a : List (List ℚ)) (x y : ℕ) (d : ℚ) : ℚ := (a.getD x []).getD y d

/-- Write an additive field entry. -/
def qSet (a : List (List ℚ)) (x y : ℕ) (v : ℚ) : List (List ℚ) :=
  a.set x ((a.getD x []).set y v)

/-- `np.where((column == COPPER_SEED) | (column == COPPER))[0][-1]`. -/
def surfaceWhereCopper (col : List Material) : Option ℕ :=
  lastIdxWhere
    (fun m => decide (m = Material.COPPER_SEED ∨ m = Material.COPPER)) col

/-- The `max_height` scan of `Electroplater._calculate_depth_factor`:
topmost surrounding surface over columns `x-5 .. x+5` (clipped), seeded
with `y`. -/
def depthFactorMaxH (g : Grid) (res x y : ℕ) : ℕ :=
  (List.range 11).foldl (fun mh i =>
    let xz : ℤ := (x : ℤ) + (i : ℤ) - 5
    if 0 ≤ xz ∧ xz < (res : ℤ) then
      match surfaceIdx? (g.getD xz.toNat []) with
      | some s => max mh s
      | none => mh
    else mh) y

/-- `Electroplater._calculate_depth_factor` (also
`_calculate_recess_depth`, which just forwards to it): normalized recess
depth, clamped to 1. -/
def depthFactor (g : Grid) (res : ℕ) (δ : ℚ) (x y : ℕ) : ℚ :=
  let depth := ((depthFactorMaxH g res x y - y : ℕ) : ℚ) * δ
  min (depth / 200e-9) 1.0

/-- One column of `Electroplater._update_additives`: accelerator accumulates
(and suppressor depletes) at the copper surface of recessed columns. -/
def updateAdditivesColumn (p : ProcessParameters) (res : ℕ) (δ dt : ℚ)
    (g : Grid) (st : List (List ℚ) × List (List ℚ)) (x : ℕ) :
    List (List ℚ) × List (List ℚ) :=
  match surfaceWhereCopper (g.getD x []) with
  | none => st
  | some surface =>
    let recess_depth := depthFactor g res δ x surface
    if 0 < recess_depth then
      (qSet st.1 x surface
         (qGet st.1 x surface 0 + dt * recess_depth / p.diffusion_length),
       qSet st.2 x surface (qGet st.2 x surface 1 * 0.99))
    else st

/-- `Electroplater._update_additives`: per-column accumulation/depletion,
then the array-wide clamps `np.clip(accelerator, 0, 10)` and
`np.clip(suppressor, 0.1, 1)`. -/
def Electroplater.update_additives (p : ProcessParameters) (res : ℕ)
    (δ : ℚ) (g : Grid) (dt : ℚ) (pl : Electroplater) : Electroplater :=
  let stepped := (List.range res).foldl (updateAdditivesColumn p res δ dt g)
    (pl.accelerator, pl.suppressor)
  { accelerator := stepped.1.map (List.map fun q => npClip q 0 10)
    suppressor := stepped.2.map (List.map fun q => npClip q 0.1 1) }

/-- The copper growth loop of `Electroplater.plate_step`
(`for dy in range(growth_pixels)`: fill vacuum cells upward). -/
def plateFill (res x surface : ℕ) : ℕ → ℕ → Grid → Grid
  | _, 0, g => g
  | dy, n + 1, g =>
    let y := surface + dy + 1
    let g' :=
      if y < res ∧ getCell g x y = Material.VACUUM then
        setCell g x y Material.COPPER
      else g
    plateFill res x surface (dy + 1) n g'

/-- One column of the deposition pass of `Electroplater.plate_step`:
local rate `base_rate * (1 + enhancement * depth_factor) *
(accelerator / suppressor)` at the copper-seed surface, then upward fill. -/
def plateColumn (p : ProcessParameters) (res : ℕ) (δ dt : ℚ)
    (pl : Electroplater) (g : Grid) (x : ℕ) : Grid :=
  match surfaceWhereCopper (g.getD x []) with
  | none => g
  | some surface =>
    let depth_factor := depthFactor g res δ x surface
    let enhancement := 1.0 + p.plating_enhancement * depth_factor
    let local_rate := p.plating_rate_base * enhancement *
      (qGet pl.accelerator x surface 0 / qGet pl.suppressor x surface 1)
    let growth_pixels := pyIntNat (local_rate * dt / δ)
    plateFill res x surface 0 growth_pixels g

/-- `Electroplater.plate_step`: update the additive fields first, then run
the per-column deposition pass against the updated fields. -/
def Electroplater.plate_step (w : DamasceneWafer) (pl : Electroplater)
    (dt : ℚ) : DamasceneWafer × Electroplater :=
  let pl2 := Electroplater.update_additives w.params w.resolution w.dy
    w.materials dt pl
  ({ w with
     materials := (List.range w.resolution).foldl
       (plateColumn w.params w.resolution w.dy dt pl2) w.materials }, pl2)

/-! ### The orchestrator (`DamasceneProcess`) -/

/-- Full process state: shared parameters, the wafer, the plater's additive
fields, and the random stream with its cursor. -/
structure DamasceneProcess where
  params : ProcessParameters
  wafer : DamasceneWafer
  plater : Electroplater
  rng : ℕ → ℚ
  rngIdx : ℕ

/-- `DamasceneWafer._initialize_layers`, per cell: assignments applied in
source order (silicon rows 0-9, bottom oxide, nitride stop, top oxide),
later slices overriding earlier ones. -/
def initCell (y_b y_n y_t y : ℕ) : Material :=
  if y_n ≤ y ∧ y < y_t then Material.OXIDE
  else if y_b ≤ y ∧ y < y_n then Material.NITRIDE
  else if 10 ≤ y ∧ y < y_b then Material.OXIDE
  else if y < 10 then Material.SILICON
  else Material.VACUUM

/-- `DamasceneWafer.__init__` (default `resolution=500` supplied by
`DamasceneProcess.__init__`). -/
def DamasceneWafer.init (params : ProcessParameters) (resolution : ℕ) :
    DamasceneWafer :=
  let dx := params.wafer_width / resolution
  let dy := params.wafer_height / resolution
  let y_b := pyIntNat (params.bottom_oxide / dy)
  let y_n := pyIntNat ((params.bottom_oxide + params.nitride_etch_stop) / dy)
  let y_t := pyIntNat
    ((params.bottom_oxide + params.nitride_etch_stop + params.top_oxide) / dy)
  { params := params
    resolution := resolution
    dx := dx
    dy := dy
    materials := List.replicate resolution
      ((List.range resolution).map (initCell y_b y_n y_t))
    current_step := "Initial"
    time := 0 }

/-- `DamasceneProcess.__init__` with the given random stream. -/
def DamasceneProcess.init (params : ProcessParameters) (rng : ℕ → ℚ) :
    DamasceneProcess :=
  { params := params
    wafer := DamasceneWafer.init params 500
    plater := Electroplater.init 500
    rng := rng
    rngIdx := 0 }

/-- The bounded `while total_time < max_time` loop shared by the stage
drivers: per iteration the body runs (receiving the post-increment
`total_time` for its `wafer.time` update), time advances by `dt`, and a
`True` second component breaks.  The drivers instantiate the fuel with
`Nat.ceil (max_time / dt)`, the exact number of iterations the `while`
condition admits. -/
def processLoop {σ : Type} (body : ℚ → σ → σ × Bool) (dt maxT : ℚ) :
    ℕ → ℚ → σ → σ
  | 0, _, s => s
  | n + 1, t, s =>
    if t < maxT then
      let r := body (t + dt) s
      if r.2 then r.1 else processLoop body dt maxT n (t + dt) r.1
    else s

/-- Loop body of `DamasceneProcess._etch_via` (dt = 0.1; via etched through
`bottom_oxide + nitride_etch_stop`; `wafer.time = total_time`). -/
def viaBody (center_x : ℚ) (t' : ℚ) (st : DamasceneProcess) :
    DamasceneProcess × Bool :=
  let r := PlasmaEtcher.etch_feature st.wafer st.rng st.rngIdx center_x
    st.params.via_width (st.params.bottom_oxide + st.params.nitride_etch_stop)
    0.1 Material.OXIDE
  ({ st with wafer := { r.1 with time := t' }, rngIdx := r.2.1 }, r.2.2)

/-- `DamasceneProcess._etch_via`: at most `ceil(20 / 0.1) = 200`
iterations. -/
def DamasceneProcess._etch_via (center_x : ℚ) (st : DamasceneProcess) :
    DamasceneProcess :=
  processLoop (viaBody center_x) 0.1 20.0 (Nat.ceil ((20.0 : ℚ) / 0.1)) 0 st

/-- Loop body of `DamasceneProcess._etch_trench` (dt = 0.1;
`wafer.time += total_time`, as in the source). -/
def trenchBody (center_x : ℚ) (t' : ℚ) (st : DamasceneProcess) :
    DamasceneProcess × Bool :=
  let r := PlasmaEtcher.etch_feature st.wafer st.rng st.rngIdx center_x
    st.params.trench_width st.params.trench_depth 0.1 Material.OXIDE
  ({ st with wafer := { r.1 with time := r.1.time + t' }, rngIdx := r.2.1 }, r.2.2)

/-- `DamasceneProcess._etch_trench`: at most `ceil(10 / 0.1) = 100`
iterations. -/
def DamasceneProcess._etch_trench (center_x : ℚ) (st : DamasceneProcess) :
    DamasceneProcess :=
  processLoop (trenchBody center_x) 0.1 10.0 (Nat.ceil ((10.0 : ℚ) / 0.1)) 0 st

/-- `DamasceneProcess._deposit_barrier`. -/
def DamasceneProcess._deposit_barrier (st : DamasceneProcess) :
    DamasceneProcess :=
  let w := PVDDepositor.deposit_conformal st.wafer Material.BARRIER
    st.params.barrier_thickness st.params.barrier_step_coverage
  { st with wafer := w }

/-- `DamasceneProcess._deposit_seed`. -/
def DamasceneProcess._deposit_seed (st : DamasceneProcess) :
    DamasceneProcess :=
  let w := PVDDepositor.deposit_conformal st.wafer Material.COPPER_SEED
    st.params.seed_thickness st.params.seed_step_coverage
  { st with wafer := w }

/-- Loop body of `DamasceneProcess._electroplate_copper` (dt = 0.01;
breaks when `np.std(surface) < 10e-9`, embedded as the equivalent
variance comparison). -/
def plateBody (_ : ℚ) (st : DamasceneProcess) : DamasceneProcess × Bool :=
  let r := Electroplater.plate_step st.wafer st.plater 0.01
  let w2 := { r.1 with time := r.1.time + 0.01 }
  let st2 := { st with wafer := w2, plater := r.2 }
  (st2, decide (npVariance w2.get_surface_height < (10e-9 : ℚ) ^ 2))

/-- `DamasceneProcess._electroplate_copper`: at most `ceil(30 / 0.01) = 3000`
iterations. -/
def DamasceneProcess._electroplate_copper (st : DamasceneProcess) :
    DamasceneProcess :=
  processLoop plateBody 0.01 30.0 (Nat.ceil ((30.0 : ℚ) / 0.01)) 0 st

/-- Loop body of `DamasceneProcess._perform_cmp` (dt = 0.05; breaks when
`is_planar(tolerance=5e-9)`). -/
def cmpBody (_ : ℚ) (st : DamasceneProcess) : DamasceneProcess × Bool :=
  let w1 := CMPPolisher.polish_step st.wafer 0.05
  let w2 := { w1 with time := w1.time + 0.05 }
  ({ st with wafer := w2 }, CMPPolisher.is_planar w2 5e-9)

/-- `DamasceneProcess._perform_cmp`: at most `ceil(20 / 0.05) = 400`
iterations. -/
def DamasceneProcess._perform_cmp (st : DamasceneProcess) :
    DamasceneProcess :=
  processLoop cmpBody 0.05 20.0 (Nat.ceil ((20.0 : ℚ) / 0.05)) 0 st

/-- The `steps` list of `DamasceneProcess.run_full_process` (via and trench
centered at `wafer_width / 2`). -/
def processSteps (p : ProcessParameters) :
    List (String × Option (DamasceneProcess → DamasceneProcess)) :=
  [("Initial State", none),
   ("Via Etch", some (DamasceneProcess._etch_via (p.wafer_width / 2))),
   ("Trench Etch", some (DamasceneProcess._etch_trench (p.wafer_width / 2))),
   ("Barrier Deposition", some DamasceneProcess._deposit_barrier),
   ("Seed Layer Deposition", some DamasceneProcess._deposit_seed),
   ("Copper Electroplating", some DamasceneProcess._electroplate_copper),
   ("CMP Polish", some DamasceneProcess._perform_cmp),
   ("Final Structure", none)]

/-- `self.wafer.current_step = step_name`. -/
def setStep (name : String) (st : DamasceneProcess) : DamasceneProcess :=
  { st with wafer := { st.wafer with current_step := name } }

/-- One iteration of the `for idx, (step_name, step_func) in enumerate(steps)`
loop of `_run_static_process`: set `wafer.current_step`, record the name, and
run the stage function when there is one (plot rendering omitted). -/
def runStep (acc : List String × DamasceneProcess)
    (step : String × Option (DamasceneProcess → DamasceneProcess)) :
    List String × DamasceneProcess :=
  let st1 := setStep step.1 acc.2
  (acc.1 ++ [step.1],
   match step.2 with
   | none => st1
   | some f => f st1)

/-- `DamasceneProcess._run_static_process`: execute the steps in order,
collecting the stage names. -/
def _run_static_process
    (steps : List (String × Option (DamasceneProcess → DamasceneProcess)))
    (st : DamasceneProcess) : List String × DamasceneProcess :=
  steps.foldl runStep ([], st)

/-- `DamasceneProcess.run_full_process` with `animation=False` (the
`animation=True` branch drives matplotlib's `FuncAnimation` and is not
modelled). -/
def DamasceneProcess.run_full_process (st : DamasceneProcess) :
    List String × DamasceneProcess :=
  _run_static_process (processSteps st.params) st

/-- Concrete states for the C5 witness: a 2×2 grid with a copper seed at the
bottom of column 0 and nontrivial additive fields. -/
def gC5 : Grid :=
  [[Material.COPPER_SEED, Material.VACUUM],
   [Material.SILICON, Material.SILICON]]

def pC5 : ProcessParameters := { plating_rate_base := 1, plating_enhancement := 0 }

def plC5 : Electroplater := { accelerator := [[2, 2], [2, 2]], suppressor := [[1, 1], [1, 1]] }

end Damascene

/-! ## The Deal-Grove oxide growth analyzer
(`simulation-examples/python/oxide_growth_model_3D.py`) -/

namespace DealGrove

/-- `K_B = 1.380649e-23` (J/K). -/
noncomputable def K_B : ℝ := 1.380649e-23

/-- `Q = 1.602176634e-19` (C). -/
noncomputable def Q : ℝ := 1.602176634e-19

/-- The validated `ambient` strings (`'dry' | 'wet' | 'steam'`). -/
inductive Ambient where
  | dry
  | wet
  | steam
  deriving DecidableEq

/-- The validated `orientation` strings (`'<100>' | '<110>' | '<111>'`). -/
inductive Orient where
  | o100
  | o110
  | o111
  deriving DecidableEq

/-- `@dataclass class OxidationParameters` (validation of ambient and
orientation is carried by the inductive types). -/
structure OxidationParameters where
  temperature : ℝ
  ambient : Ambient := Ambient.dry
  pressure : ℝ := 1.0
  orientation : Orient := Orient.o100
  initial_oxide : ℝ := 0.0

/-- `@dataclass class DealGroveCoefficients`. -/
structure DealGroveCoefficients where
  A : ℝ
  B : ℝ
  tau : ℝ := 0.0

/-- `OxideGrowthAnalyzer._calculate_deal_grove_coefficients`: Arrhenius
rates, pressure scaling, orientation factor on `B`, and the initial time
offset `tau = (x_i² + A·x_i) / B` when an initial oxide is present. -/
noncomputable def calcDealGroveCoefficients (p : OxidationParameters) :
    DealGroveCoefficients :=
  let T := p.temperature
  let E_A_B : ℝ := match p.ambient with
    | Ambient.dry => 1.23
    | Ambient.wet => 0.78
    | Ambient.steam => 0.78
  let E_A_A : ℝ := match p.ambient with
    | Ambient.dry => 2.0
    | Ambient.wet => 2.05
    | Ambient.steam => 2.0
  let B_0 : ℝ := match p.ambient with
    | Ambient.dry => 7.72e7
    | Ambient.wet => 3.86e8
    | Ambient.steam => 5e8
  let A_0 : ℝ := match p.ambient with
    | Ambient.dry => 6.23e6
    | Ambient.wet => 3.71e6
    | Ambient.steam => 4e6
  let B1 := B_0 * Real.exp (-E_A_B * Q / (K_B * T))
  let A1 := A_0 * Real.exp (-E_A_A * Q / (K_B * T))
  let B2 := B1 * p.pressure
  let A2 := A1 * p.pressure
  let orientation_factor : ℝ := match p.orientation with
    | Orient.o110 => 1.68
    | Orient.o111 => 1.20
    | Orient.o100 => 1.0
  let B3 := B2 * orientation_factor
  let tau : ℝ :=
    if 0 < p.initial_oxide then
      (p.initial_oxide ^ 2 + A2 * p.initial_oxide) / B3
    else 0.0
  { A := A2, B := B3, tau := tau }

/-- `OxideGrowthAnalyzer.oxide_thickness`: the quadratic-formula solution of
`x² + A·x = B(t + τ)`, guarded on the discriminant and clamped at 0. -/
noncomputable def oxide_thickness (c : DealGroveCoefficients) (time : ℝ) : ℝ :=
  let discriminant := c.A ^ 2 + 4 * c.B * (time + c.tau)
  if discriminant < 0 then 0.0
  else max 0.0 ((-c.A + Real.sqrt discriminant) / 2.0)

/-- `OxideGrowthAnalyzer(parameters).oxide_thickness(t)` — the analyzer
computes its coefficients at construction and evaluates the Deal-Grove
solution. -/
noncomputable def analyzerOxideThickness (p : OxidationParameters) (t : ℝ) : ℝ :=
  oxide_thickness (calcDealGroveCoefficients p) t

/-- Concrete parameters for the C6 witness. -/
noncomputable def pC6 : OxidationParameters :=
  { temperature := 1100, initial_oxide := 1 }

end DealGrove

namespace Damascene

/-! ### Cell access lemmas -/

attribute [local semireducible] Rat.mul Rat.add Rat.sub Rat.inv Rat.ofScientific

theorem getD_set (l : List α) (i j : ℕ) (a d : α) :
    (l.set i a).getD j d = if i = j ∧ i < l.length then a else l.getD j d := by
  have hD : ∀ (m : List α) (n : ℕ), m.getD n d = (m.get? n).getD d := fun _ _ => rfl
  rw [hD, hD, List.get?_set]
  rcases eq_or_ne i j with rfl | hij
  · cases hget : l.get? i with
    | none =>
      have hlen : l.length ≤ i := List.get?_eq_none.mp hget
      simp [hget, Nat.not_lt.mpr hlen]
    | some v =>
      have hlt : i < l.length := by
        rcases List.get?_eq_some.mp hget with ⟨h, _⟩
        exact h
      simp [hget, hlt]
  · simp [hij]

theorem getCell_setCell (g : Grid) (x y : ℕ) (m : Material) (x' y' : ℕ) :
    getCell (setCell g x y m) x' y' =
      if x = x' ∧ y = y' ∧ x < g.length ∧ y < (g.getD x []).length then m
      else getCell g x' y' := by
  unfold getCell setCell
  rw [getD_set]
  by_cases hx : x = x' ∧ x < g.length
  · obtain ⟨rfl, hxl⟩ := hx
    rw [if_pos ⟨rfl, hxl⟩, getD_set]
    by_cases hy : y = y' ∧ y < (g.getD x []).length
    · obtain ⟨rfl, hyl⟩ := hy
      rw [if_pos ⟨rfl, hyl⟩, if_pos ⟨rfl, rfl, hxl, hyl⟩]
    · rw [if_neg hy, if_neg]
      rintro ⟨-, rfl, -, hyl⟩
      exact hy ⟨rfl, hyl⟩
  · rw [if_neg hx, if_neg]
    rintro ⟨rfl, -, hxl, -⟩
    exact hx ⟨rfl, hxl⟩

theorem getCell_bounds {g : Grid} {x y : ℕ}
    (h : getCell g x y ≠ Material.VACUUM) :
    x < g.length ∧ y < (g.getD x []).length := by
  constructor
  · by_contra hx
    rw [getCell, List.getD_eq_default _ _ (Nat.le_of_not_lt hx)] at h
    exact h rfl
  · by_contra hy
    rw [getCell, List.getD_eq_default _ _ (Nat.le_of_not_lt hy)] at h
    exact h rfl

theorem getCell_setCell_self {g : Grid} {x y : ℕ} (m : Material)
    (h : getCell g x y ≠ Material.VACUUM) :
    getCell (setCell g x y m) x y = m := by
  obtain ⟨hx, hy⟩ := getCell_bounds h
  rw [getCell_setCell, if_pos ⟨rfl, rfl, hx, hy⟩]

/-! ### Removal-only transitions (etching never adds material) -/

/-- `g'` arises from `g` by only vacating cells. -/
def RemOnly (g g' : Grid) : Prop :=
  ∀ x y, getCell g' x y = getCell g x y ∨ getCell g' x y = Material.VACUUM

theorem RemOnly.refl (g : Grid) : RemOnly g g := fun _ _ => Or.inl (Eq.refl _)

theorem RemOnly.trans {g1 g2 g3 : Grid} (h12 : RemOnly g1 g2)
    (h23 : RemOnly g2 g3) : RemOnly g1 g3 := by
  intro x y
  rcases h23 x y with h | h
  · rw [h]; exact h12 x y
  · exact Or.inr h

theorem RemOnly.setVac (g : Grid) (x y : ℕ) :
    RemOnly g (setCell g x y Material.VACUUM) := by
  intro x' y'
  rw [getCell_setCell]
  split
  · exact Or.inr (Eq.refl _)
  · exact Or.inl (Eq.refl _)

theorem RemOnly.vacPersist {g g' : Grid} {x y : ℕ} (h : RemOnly g g')
    (hv : getCell g x y = Material.VACUUM) :
    getCell g' x y = Material.VACUUM := by
  rcases h x y with h' | h'
  · rw [h', hv]
  · exact h'

theorem RemOnly.nonVacBack {g g' : Grid} {x y : ℕ} (h : RemOnly g g')
    (hv : getCell g' x y ≠ Material.VACUUM) :
    getCell g x y = getCell g' x y := by
  rcases h x y with h' | h'
  · exact h'.symm
  · exact absurd h' hv

/-! ### Surface index lemmas -/

theorem lastIdxWhere_lt_length {p : Material → Bool} :
    ∀ {col : List Material} {s : ℕ}, lastIdxWhere p col = some s → s < col.length := by
  intro col
  induction col with
  | nil => intro s h; simp [lastIdxWhere] at h
  | cons m rest ih =>
    intro s h
    rw [lastIdxWhere] at h
    cases hr : lastIdxWhere p rest with
    | some s' =>
      rw [hr] at h
      cases h
      exact Nat.succ_lt_succ (ih hr)
    | none =>
      rw [hr] at h
      by_cases hp : p m
      · rw [if_pos hp] at h; cases h; exact Nat.succ_pos _
      · rw [if_neg hp] at h; cases h

theorem lastIdxWhere_getD {p : Material → Bool} {d : Material} :
    ∀ {col : List Material} {s : ℕ}, lastIdxWhere p col = some s →
      p (col.getD s d) = true := by
  intro col
  induction col with
  | nil => intro s h; simp [lastIdxWhere] at h
  | cons m rest ih =>
    intro s h
    rw [lastIdxWhere] at h
    cases hr : lastIdxWhere p rest with
    | some s' =>
      rw [hr] at h
      cases h
      simpa using ih hr
    | none =>
      rw [hr] at h
      by_cases hp : p m
      · rw [if_pos hp] at h; cases h; simpa using hp
      · rw [if_neg hp] at h; cases h

theorem lastIdxWhere_ge {p : Material → Bool} {d : Material} (hd : p d = false) :
    ∀ {col : List Material} {y : ℕ}, p (col.getD y d) = true →
      ∃ s, lastIdxWhere p col = some s ∧ y ≤ s := by
  intro col
  induction col with
  | nil =>
    intro y h
    rw [List.getD_eq_default] at h
    · rw [h] at hd; cases hd
    · exact Nat.zero_le _
  | cons m rest ih =>
    intro y h
    cases y with
    | zero =>
      rw [List.getD_cons_zero] at h
      cases hr : lastIdxWhere p rest with
      | some s' => exact ⟨s' + 1, by rw [lastIdxWhere, hr], Nat.zero_le _⟩
      | none => exact ⟨0, by rw [lastIdxWhere, hr, if_pos h], Nat.le_refl _⟩
    | succ y' =>
      rw [List.getD_cons_succ] at h
      obtain ⟨s', hs', hle⟩ := ih h
      exact ⟨s' + 1, by rw [lastIdxWhere, hs'], Nat.succ_le_succ hle⟩

theorem surfaceIdx?_lt_length {col : List Material} {s : ℕ}
    (h : surfaceIdx? col = some s) : s < col.length :=
  lastIdxWhere_lt_length h

theorem surfaceIdx?_getD_ne {col : List Material} {s : ℕ}
    (h : surfaceIdx? col = some s) : col.getD s Material.VACUUM ≠ Material.VACUUM := by
  have h2 : (fun m => decide (m ≠ Material.VACUUM)) (col.getD s Material.VACUUM) = true :=
    lastIdxWhere_getD h
  simpa using h2

theorem surfaceIdx?_ge {col : List Material} {y : ℕ}
    (h : col.getD y Material.VACUUM ≠ Material.VACUUM) :
    ∃ s, surfaceIdx? col = some s ∧ y ≤ s := by
  have hpd : (fun m => decide (m ≠ Material.VACUUM)) Material.VACUUM = false := by simp
  have hy : (fun m => decide (m ≠ Material.VACUUM)) (col.getD y Material.VACUUM) = true := by
    simpa using h
  exact lastIdxWhere_ge hpd hy

/-- Etching only removes material, so the surface of a column can only drop. -/
theorem surface_mono {g0 g : Grid} {x s : ℕ} (h : RemOnly g0 g)
    (hs : surfaceIdx? (g.getD x []) = some s) :
    ∃ s0, surfaceIdx? (g0.getD x []) = some s0 ∧ s ≤ s0 := by
  have hcell : getCell g x s ≠ Material.VACUUM := surfaceIdx?_getD_ne hs
  have h0 : getCell g0 x s ≠ Material.VACUUM := by
    rw [h.nonVacBack hcell]; exact hcell
  exact surfaceIdx?_ge h0

/-! ### The C2 observable and the depth-accumulator invariant -/

theorem removalReachedB_iff {pre post : Grid} {sx ex : ℕ} {δ b : ℚ} :
    removalReachedB pre post sx ex δ b = true ↔
      ∃ x ∈ rangeFromTo sx ex, ∃ s, surfaceIdx? (pre.getD x []) = some s ∧
        ∃ y, y ≤ s ∧ getCell pre x y ≠ Material.VACUUM ∧
          getCell post x y = Material.VACUUM ∧ b ≤ ((s : ℚ) - (y : ℚ)) * δ := by
  unfold removalReachedB
  rw [List.any_eq_true]
  constructor
  · rintro ⟨x, hx, hfx⟩
    refine ⟨x, hx, ?_⟩
    cases hs : surfaceIdx? (pre.getD x []) with
    | none => rw [hs] at hfx; cases hfx
    | some s =>
      rw [hs] at hfx
      rw [List.any_eq_true] at hfx
      obtain ⟨y, hy, hcond⟩ := hfx
      simp only [Bool.and_eq_true, decide_eq_true_eq] at hcond
      exact ⟨s, Eq.refl _, y, Nat.lt_succ_iff.mp (List.mem_range.mp hy),
        hcond.1.1, hcond.1.2, hcond.2⟩
  · rintro ⟨x, hx, s, hs, y, hy, h1, h2, h3⟩
    refine ⟨x, hx, ?_⟩
    rw [hs, List.any_eq_true]
    refine ⟨y, List.mem_range.mpr (Nat.lt_succ_of_le hy), ?_⟩
    simp only [Bool.and_eq_true, decide_eq_true_eq]
    exact ⟨⟨h1, h2⟩, h3⟩

theorem removalReachedB_mono_post {pre g1 g2 : Grid} {sx ex : ℕ} {δ b : ℚ}
    (h : RemOnly g1 g2) (hr : removalReachedB pre g1 sx ex δ b = true) :
    removalReachedB pre g2 sx ex δ b = true := by
  rw [removalReachedB_iff] at hr ⊢
  obtain ⟨x, hx, s, hs, y, hy, h1, h2, h3⟩ := hr
  exact ⟨x, hx, s, hs, y, hy, h1, h.vacPersist h2, h3⟩

theorem removalReachedB_mono_bound {pre post : Grid} {sx ex : ℕ} {δ b b' : ℚ}
    (hb : b' ≤ b) (hr : removalReachedB pre post sx ex δ b = true) :
    removalReachedB pre post sx ex δ b' = true := by
  rw [removalReachedB_iff] at hr ⊢
  obtain ⟨x, hx, s, hs, y, hy, h1, h2, h3⟩ := hr
  exact ⟨x, hx, s, hs, y, hy, h1, h2, le_trans hb h3⟩

/-- Invariant carried through the etch pass: the running `current_depth`
value is either non-positive or witnessed by an actually removed cell in the
window, at that physical depth below its column's pre-call surface. -/
def Wit (g0 : Grid) (sx ex : ℕ) (δ : ℚ) (g : Grid) (d : ℚ) : Prop :=
  d ≤ 0 ∨ removalReachedB g0 g sx ex δ d = true

theorem Wit.zero (g0 : Grid) (sx ex : ℕ) (δ : ℚ) (g : Grid) :
    Wit g0 sx ex δ g 0 := Or.inl le_rfl

theorem Wit.mono_post {g0 g g' : Grid} {sx ex : ℕ} {δ d : ℚ}
    (h : RemOnly g g') (hw : Wit g0 sx ex δ g d) : Wit g0 sx ex δ g' d := by
  rcases hw with hw | hw
  · exact Or.inl hw
  · exact Or.inr (removalReachedB_mono_post h hw)

theorem Wit.max {g0 g : Grid} {sx ex : ℕ} {δ d1 d2 : ℚ}
    (h1 : Wit g0 sx ex δ g d1) (h2 : Wit g0 sx ex δ g d2) :
    Wit g0 sx ex δ g (max d1 d2) := by
  rcases le_total d1 d2 with h | h
  · rw [max_eq_right h]; exact h2
  · rw [max_eq_left h]; exact h1

/-- A fresh removal at offset `dy` below the current surface of column `x`
witnesses the freshly recorded depth `dy * δ`. -/
theorem Wit.new {g0 g : Grid} {sx ex x y dy s0 : ℕ} {δ : ℚ}
    (hrem : RemOnly g0 g)
    (hcur : getCell g x y ≠ Material.VACUUM)
    (hx : x ∈ rangeFromTo sx ex)
    (hs0 : surfaceIdx? (g0.getD x []) = some s0)
    (hdy : dy + y ≤ s0) :
    Wit g0 sx ex δ (setCell g x y Material.VACUUM) ((dy : ℚ) * δ) := by
  rcases le_or_lt δ 0 with hδ | hδ
  · exact Or.inl (mul_nonpos_of_nonneg_of_nonpos (Nat.cast_nonneg dy) hδ)
  · refine Or.inr (removalReachedB_iff.mpr ⟨x, hx, s0, hs0, y, ?_, ?_, ?_, ?_⟩)
    · omega
    · rw [hrem.nonVacBack hcur]; exact hcur
    · exact getCell_setCell_self _ hcur
    · have hc : (dy : ℚ) ≤ (s0 : ℚ) - (y : ℚ) := by
        have : (dy : ℚ) + (y : ℚ) ≤ (s0 : ℚ) := by exact_mod_cast hdy
        linarith
      exact mul_le_mul_of_nonneg_right hc (le_of_lt hδ)

theorem etchDown_inv (rng : ℕ → ℚ) (sel : ℚ) (target : Material) (δ : ℚ)
    (x surface sx ex : ℕ) (g0 : Grid) (s0 : ℕ)
    (htm : target ≠ Material.VACUUM)
    (hx : x ∈ rangeFromTo sx ex)
    (hs0 : surfaceIdx? (g0.getD x []) = some s0)
    (hsurf : surface ≤ s0) :
    ∀ (n dy : ℕ) (g : Grid) (k : ℕ) (d : ℚ), RemOnly g0 g → Wit g0 sx ex δ g d →
      RemOnly g0 (etchDown rng sel target δ x surface dy n g k d).1 ∧
      Wit g0 sx ex δ (etchDown rng sel target δ x surface dy n g k d).1
        (etchDown rng sel target δ x surface dy n g k d).2.2 := by
  intro n
  induction n with
  | zero => intro dy g k d h1 h2; exact ⟨h1, h2⟩
  | succ n ih =>
    intro dy g k d h1 h2
    rw [etchDown]
    by_cases hlt : surface < dy
    · rw [if_pos hlt]; exact ⟨h1, h2⟩
    · rw [if_neg hlt]
      simp only
      by_cases hnit : getCell g x (surface - dy) = Material.NITRIDE
      · rw [if_pos hnit]
        by_cases hr : sel < rng k
        · rw [if_pos hr]
          have hcur : getCell g x (surface - dy) ≠ Material.VACUUM := by
            rw [hnit]; intro h; cases h
          refine ih (dy + 1) _ (k + 1) d (h1.trans (RemOnly.setVac g x (surface - dy))) ?_
          exact h2.mono_post (RemOnly.setVac g x (surface - dy))
        · rw [if_neg hr]
          exact ih (dy + 1) g (k + 1) d h1 h2
      · rw [if_neg hnit]
        by_cases hm : getCell g x (surface - dy) = target ∨
            getCell g x (surface - dy) = Material.OXIDE
        · rw [if_pos hm]
          have hcur : getCell g x (surface - dy) ≠ Material.VACUUM := by
            rcases hm with hm | hm
            · rw [hm]; exact htm
            · rw [hm]; intro h; cases h
          have hdy : dy + (surface - dy) ≤ s0 := by omega
          refine ih (dy + 1) _ k _ (h1.trans (RemOnly.setVac g x (surface - dy))) ?_
          exact Wit.max (h2.mono_post (RemOnly.setVac g x (surface - dy)))
            (Wit.new h1 hcur hx hs0 hdy)
        · rw [if_neg hm]
          exact ih (dy + 1) g k d h1 h2

theorem etchLateral_rem (target : Material) (xw surface : ℕ) :
    ∀ (n dy : ℕ) (g : Grid), RemOnly g (etchLateral target xw surface dy n g) := by
  intro n
  induction n with
  | zero => intro dy g; exact RemOnly.refl g
  | succ n ih =>
    intro dy g
    rw [etchLateral]
    by_cases h : dy ≤ surface ∧ getCell g xw (surface - dy) = target
    · rw [if_pos h]
      exact (RemOnly.setVac g xw (surface - dy)).trans (ih _ _)
    · rw [if_neg h]
      exact ih _ _

theorem etchColumn_inv (rng : ℕ → ℚ) (sel : ℚ) (target : Material) (δ : ℚ)
    (res lateral_etch etch_pixels : ℕ) (sx ex : ℕ) (g0 : Grid) (x : ℕ)
    (htm : target ≠ Material.VACUUM) (hx : x ∈ rangeFromTo sx ex)
    (st : Grid × ℕ × ℚ) (h1 : RemOnly g0 st.1) (h2 : Wit g0 sx ex δ st.1 st.2.2) :
    RemOnly g0 (etchColumn rng sel target δ res lateral_etch etch_pixels st x).1 ∧
    Wit g0 sx ex δ (etchColumn rng sel target δ res lateral_etch etch_pixels st x).1
      (etchColumn rng sel target δ res lateral_etch etch_pixels st x).2.2 := by
  cases hs : surfaceIdx? (st.1.getD x []) with
  | none => simp only [etchColumn, hs]; exact ⟨h1, h2⟩
  | some surface =>
    obtain ⟨s0, hs0, hsurf⟩ := surface_mono h1 hs
    simp only [etchColumn, hs]
    obtain ⟨hr1, hr2⟩ := etchDown_inv rng sel target δ x surface sx ex g0 s0
      htm hx hs0 hsurf etch_pixels 0 st.1 st.2.1 st.2.2 h1 h2
    set r := etchDown rng sel target δ x surface 0 etch_pixels st.1 st.2.1 st.2.2 with hrdef
    by_cases hcond : 0 < lateral_etch ∧ lateral_etch ≤ surface
    · rw [if_pos hcond]
      by_cases hleft : lateral_etch ≤ x
      · rw [if_pos hleft]
        set gl := etchLateral target (x - lateral_etch) surface 0 lateral_etch r.1 with hgl
        have hstepl : RemOnly r.1 gl := etchLateral_rem _ _ _ _ _ _
        by_cases hright : x + lateral_etch < res
        · rw [if_pos hright]
          have hstepr : RemOnly gl (etchLateral target (x + lateral_etch) surface 0 lateral_etch gl) :=
            etchLateral_rem _ _ _ _ _ _
          exact ⟨hr1.trans (hstepl.trans hstepr),
            (hr2.mono_post hstepl).mono_post hstepr⟩
        · rw [if_neg hright]
          exact ⟨hr1.trans hstepl, hr2.mono_post hstepl⟩
      · rw [if_neg hleft]
        by_cases hright : x + lateral_etch < res
        · rw [if_pos hright]
          have hstepr : RemOnly r.1 (etchLateral target (x + lateral_etch) surface 0 lateral_etch r.1) :=
            etchLateral_rem _ _ _ _ _ _
          exact ⟨hr1.trans hstepr, hr2.mono_post hstepr⟩
        · rw [if_neg hright]
          exact ⟨hr1, hr2⟩
    · rw [if_neg hcond]
      exact ⟨hr1, hr2⟩

theorem etchFold_inv (rng : ℕ → ℚ) (sel : ℚ) (target : Material) (δ : ℚ)
    (res lateral_etch etch_pixels : ℕ) (sx ex : ℕ) (g0 : Grid)
    (htm : target ≠ Material.VACUUM) :
    ∀ (W : List ℕ) (st : Grid × ℕ × ℚ), (∀ x ∈ W, x ∈ rangeFromTo sx ex) →
      RemOnly g0 st.1 → Wit g0 sx ex δ st.1 st.2.2 →
      RemOnly g0 (W.foldl (etchColumn rng sel target δ res lateral_etch etch_pixels) st).1 ∧
      Wit g0 sx ex δ (W.foldl (etchColumn rng sel target δ res lateral_etch etch_pixels) st).1
        (W.foldl (etchColumn rng sel target δ res lateral_etch etch_pixels) st).2.2 := by
  intro W
  induction W with
  | nil => intro st _ h1 h2; exact ⟨h1, h2⟩
  | cons x W ih =>
    intro st hW h1 h2
    rw [List.foldl_cons]
    obtain ⟨h1', h2'⟩ := etchColumn_inv rng sel target δ res lateral_etch etch_pixels
      sx ex g0 x htm (hW x (List.mem_cons_self x W)) st h1 h2
    exact ih _ (fun z hz => hW z (List.mem_cons_of_mem x hz)) h1' h2'

theorem etchFeatureRun_inv (p : ProcessParameters) (res : ℕ) (dx δ : ℚ)
    (g : Grid) (rng : ℕ → ℚ) (k : ℕ) (center_x width dt : ℚ) (target : Material)
    (htm : target ≠ Material.VACUUM) :
    RemOnly g (etchFeatureRun p res dx δ g rng k center_x width dt target).1 ∧
    Wit g (etchStartX dx center_x width) (etchEndX res dx center_x width) δ
      (etchFeatureRun p res dx δ g rng k center_x width dt target).1
      (etchFeatureRun p res dx δ g rng k center_x width dt target).2.2 := by
  simp only [etchFeatureRun]
  exact etchFold_inv _ _ _ _ _ _ _ _ _ _ htm _ _ (fun z hz => hz)
    (RemOnly.refl g) (Wit.zero _ _ _ _ _)

/-- **C2, amended.**  If `PlasmaEtcher.etch_feature` returns `True` (with a
positive target depth and a non-vacuum target material) then some cell of the
window was indeed removed by the call at a depth of at least 95% of
`target_depth` below its column's pre-call surface.  The converse of the
claim fails (see `C2_counterexample`): the flag only accounts for removals
made by the vertical etch pass and counted against the column's current
surface; lateral-etch and etch-stop removals are invisible to it. -/
theorem C2_finished_implies_deep_removal
    (w : DamasceneWafer) (rng : ℕ → ℚ) (k : ℕ)
    (center_x width target_depth dt : ℚ) (target : Material)
    (htm : target ≠ Material.VACUUM) (ht : 0 < target_depth)
    (hfin : (PlasmaEtcher.etch_feature w rng k center_x width target_depth dt target).2.2 = true) :
    removalReachedB w.materials
      (PlasmaEtcher.etch_feature w rng k center_x width target_depth dt target).1.materials
      (etchStartX w.dx center_x width) (etchEndX w.resolution w.dx center_x width)
      w.dy (target_depth * 0.95) = true := by
  have hrun := etchFeatureRun_inv w.params w.resolution w.dx w.dy w.materials
    rng k center_x width dt target htm
  have hd : target_depth * 0.95 ≤
      (etchFeatureRun w.params w.resolution w.dx w.dy w.materials rng k
        center_x width dt target).2.2 := by
    simp only [PlasmaEtcher.etch_feature] at hfin
    exact of_decide_eq_true hfin
  have hpost : (PlasmaEtcher.etch_feature w rng k center_x width target_depth dt target).1.materials =
      (etchFeatureRun w.params w.resolution w.dx w.dy w.materials rng k
        center_x width dt target).1 := by
    simp only [PlasmaEtcher.etch_feature]
  rw [hpost]
  rcases hrun.2 with hle | hreach
  · exfalso
    have hpos : 0 < target_depth * 0.95 := mul_pos ht (by norm_num)
    linarith
  · exact removalReachedB_mono_bound hd hreach

/-- Witness for `C2_finished_implies_deep_removal` at a concrete etch:
a single all-oxide column etched 3 cells deep against a target depth of 2. -/
theorem C2_finished_implies_deep_removal_witness :
    Material.OXIDE ≠ Material.VACUUM ∧ (0 : ℚ) < 2 ∧
    (PlasmaEtcher.etch_feature wC2wit rng0 0 0.5 2 2 1 Material.OXIDE).2.2 = true ∧
    removalReachedB wC2wit.materials
      (PlasmaEtcher.etch_feature wC2wit rng0 0 0.5 2 2 1 Material.OXIDE).1.materials
      (etchStartX wC2wit.dx 0.5 2) (etchEndX wC2wit.resolution wC2wit.dx 0.5 2)
      wC2wit.dy (2 * 0.95) = true :=
  ⟨by decide, by norm_num,
   by decide,
   C2_finished_implies_deep_removal wC2wit rng0 0 0.5 2 2 1 Material.OXIDE
     (by decide) (by norm_num) (by decide)⟩

/-- **C2, counterexample to the claim as stated.**  On `wC2cex` the call
removes two oxide cells of column 3 through the lateral etch — the deepest
removal in the window reaches depth 2 ≥ 95% of the target depth 2 — yet
`etch_feature` returns `False`, because `current_depth` only records the
vertical pass's removals. -/
theorem C2_counterexample :
    ¬ (((PlasmaEtcher.etch_feature wC2cex rng0 0 2 4 2 1 Material.OXIDE).2.2 = true) ↔
       (removalReachedB wC2cex.materials
         (PlasmaEtcher.etch_feature wC2cex rng0 0 2 4 2 1 Material.OXIDE).1.materials
         (etchStartX wC2cex.dx 2 4) (etchEndX wC2cex.resolution wC2cex.dx 2 4)
         wC2cex.dy (2 * 0.95) = true)) := by
  decide

/-! ### C7: every grid access of `etch_feature` is in bounds -/

theorem getD_mem {g : Grid} {x : ℕ} (hx : x < g.length) : g.getD x [] ∈ g := by
  cases hc : g.get? x with
  | none => exact absurd (List.get?_eq_none.mp hc) (Nat.not_le.mpr hx)
  | some c =>
    have hcol : g.getD x [] = c := by
      show (g.get? x).getD [] = c
      rw [hc]; rfl
    rw [hcol]
    exact List.get?_mem hc

theorem WF.colLen {res : ℕ} {g : Grid} (h : WF res g) {x : ℕ} (hx : x < res) :
    (g.getD x []).length = res :=
  h.2 _ (getD_mem (by rw [h.1]; exact hx))

theorem WF.setCellWF {res : ℕ} {g : Grid} (h : WF res g) (x y : ℕ) (m : Material) :
    WF res (setCell g x y m) := by
  by_cases hx : x < g.length
  · refine ⟨by rw [setCell, List.length_set]; exact h.1, ?_⟩
    intro c hc
    rcases List.mem_or_eq_of_mem_set hc with hcg | hceq
    · exact h.2 c hcg
    · rw [hceq, List.length_set]
      exact h.colLen (by rw [← h.1]; exact hx)
  · rw [setCell, List.set_eq_of_length_le (Nat.le_of_not_lt hx)]
    exact h

theorem getCellChk_eq {g : Grid} {x y : ℕ} (hx : x < g.length)
    (hy : y < (g.getD x []).length) :
    getCellChk g x y = some (getCell g x y) := by
  cases hc : g.get? x with
  | none => exact absurd (List.get?_eq_none.mp hc) (Nat.not_le.mpr hx)
  | some col =>
    have hcol : g.getD x [] = col := by
      show (g.get? x).getD [] = col
      rw [hc]; rfl
    rw [hcol] at hy
    cases hcy : col.get? y with
    | none => exact absurd (List.get?_eq_none.mp hcy) (Nat.not_le.mpr hy)
    | some v =>
      show (g.get? x).bind (fun c => c.get? y) = some (getCell g x y)
      rw [hc, Option.some_bind, hcy, getCell, hcol]
      show some v = some ((col.get? y).getD Material.VACUUM)
      rw [hcy]
      rfl

theorem setCellChk_eq {res : ℕ} {g : Grid} (h : WF res g) {x y : ℕ}
    (hx : x < res) (hy : y < res) (m : Material) :
    setCellChk g x y m = some (setCell g x y m) := by
  rw [setCellChk, if_pos]
  exact ⟨by rw [h.1]; exact hx, by rw [h.colLen hx]; exact hy⟩

theorem rangeFromTo_lt {a b x : ℕ} (h : x ∈ rangeFromTo a b) : x < b := by
  rw [rangeFromTo, List.mem_map] at h
  obtain ⟨i, hi, rfl⟩ := h
  have := List.mem_range.mp hi
  omega

theorem etchEndX_le (res : ℕ) (dx center_x width : ℚ) :
    etchEndX res dx center_x width ≤ res := by
  rw [etchEndX]
  exact Int.toNat_le.mpr (min_le_left _ _)

theorem etchDownChk_eq (rng : ℕ → ℚ) (sel : ℚ) (target : Material) (δ : ℚ)
    (res x surface : ℕ) (hx : x < res) (hs : surface < res) :
    ∀ (n dy : ℕ) (g : Grid) (k : ℕ) (d : ℚ), WF res g →
      etchDownChk rng sel target δ x surface dy n g k d =
        some (etchDown rng sel target δ x surface dy n g k d) ∧
      WF res (etchDown rng sel target δ x surface dy n g k d).1 := by
  intro n
  induction n with
  | zero => intro dy g k d hwf; exact ⟨Eq.refl _, hwf⟩
  | succ n ih =>
    intro dy g k d hwf
    rw [etchDownChk, etchDown]
    by_cases hlt : surface < dy
    · rw [if_pos hlt, if_pos hlt]; exact ⟨Eq.refl _, hwf⟩
    · rw [if_neg hlt, if_neg hlt]
      have hy : surface - dy < res := Nat.lt_of_le_of_lt (Nat.sub_le _ _) hs
      have hget : getCellChk g x (surface - dy) = some (getCell g x (surface - dy)) :=
        getCellChk_eq (by rw [hwf.1]; exact hx) (by rw [hwf.colLen hx]; exact hy)
      simp only [hget]
      by_cases hnit : getCell g x (surface - dy) = Material.NITRIDE
      · rw [if_pos hnit, if_pos hnit]
        by_cases hr : sel < rng k
        · rw [if_pos hr, if_pos hr, setCellChk_eq hwf hx hy]
          exact ih (dy + 1) _ (k + 1) d (hwf.setCellWF _ _ _)
        · rw [if_neg hr, if_neg hr]
          exact ih (dy + 1) g (k + 1) d hwf
      · rw [if_neg hnit, if_neg hnit]
        by_cases hm : getCell g x (surface - dy) = target ∨
            getCell g x (surface - dy) = Material.OXIDE
        · rw [if_pos hm, if_pos hm, setCellChk_eq hwf hx hy]
          exact ih (dy + 1) _ k _ (hwf.setCellWF _ _ _)
        · rw [if_neg hm, if_neg hm]
          exact ih (dy + 1) g k d hwf

theorem etchLateralChk_eq (target : Material) (res xw surface : ℕ)
    (hxw : xw < res) (hs : surface < res) :
    ∀ (n dy : ℕ) (g : Grid), WF res g →
      etchLateralChk target xw surface dy n g =
        some (etchLateral target xw surface dy n g) ∧
      WF res (etchLateral target xw surface dy n g) := by
  intro n
  induction n with
  | zero => intro dy g hwf; exact ⟨Eq.refl _, hwf⟩
  | succ n ih =>
    intro dy g hwf
    rw [etchLateralChk, etchLateral]
    have hy : surface - dy < res := Nat.lt_of_le_of_lt (Nat.sub_le _ _) hs
    by_cases hdy : dy ≤ surface
    · rw [if_pos hdy]
      have hget : getCellChk g xw (surface - dy) = some (getCell g xw (surface - dy)) :=
        getCellChk_eq (by rw [hwf.1]; exact hxw) (by rw [hwf.colLen hxw]; exact hy)
      simp only [hget]
      by_cases hm : getCell g xw (surface - dy) = target
      · rw [if_pos hm, setCellChk_eq hwf hxw hy, if_pos ⟨hdy, hm⟩]
        exact ih (dy + 1) _ (hwf.setCellWF _ _ _)
      · rw [if_neg hm, if_neg (by rintro ⟨-, hc⟩; exact hm hc)]
        exact ih (dy + 1) g hwf
    · rw [if_neg hdy, if_neg (by rintro ⟨hc, -⟩; exact hdy hc)]
      exact ih (dy + 1) g hwf

theorem etchColumnChk_eq (rng : ℕ → ℚ) (sel : ℚ) (target : Material) (δ : ℚ)
    (res lateral_etch etch_pixels : ℕ) (st : Grid × ℕ × ℚ) (x : ℕ)
    (hx : x < res) (hwf : WF res st.1) :
    etchColumnChk rng sel target δ res lateral_etch etch_pixels st x =
      some (etchColumn rng sel target δ res lateral_etch etch_pixels st x) ∧
    WF res (etchColumn rng sel target δ res lateral_etch etch_pixels st x).1 := by
  have hxg : x < st.1.length := by rw [hwf.1]; exact hx
  cases hc : st.1.get? x with
  | none => exact absurd (List.get?_eq_none.mp hc) (Nat.not_le.mpr hxg)
  | some col =>
    have hcol : st.1.getD x [] = col := by
      show (st.1.get? x).getD [] = col
      rw [hc]; rfl
    cases hs : surfaceIdx? col with
    | none =>
      constructor
      · simp only [etchColumnChk, hc, hs, etchColumn, hcol]
      · simp only [etchColumn, hcol, hs]
        exact hwf
    | some surface =>
      have hsurf : surface < res := by
        have h1 := surfaceIdx?_lt_length hs
        rw [← hcol, hwf.colLen hx] at h1
        exact h1
      obtain ⟨hdeq, hdwf⟩ := etchDownChk_eq rng sel target δ res x surface hx hsurf
        etch_pixels 0 st.1 st.2.1 st.2.2 hwf
      simp only [etchColumnChk, hc, hs, hdeq, etchColumn, hcol]
      by_cases hcond : 0 < lateral_etch ∧ lateral_etch ≤ surface
      · rw [if_pos hcond, if_pos hcond]
        by_cases hleft : lateral_etch ≤ x
        · rw [if_pos hleft, if_pos hleft]
          obtain ⟨hleq, hlwf⟩ := etchLateralChk_eq target res (x - lateral_etch) surface
            (Nat.lt_of_le_of_lt (Nat.sub_le _ _) hx) hsurf lateral_etch 0 _ hdwf
          rw [hleq, Option.some_bind]
          by_cases hright : x + lateral_etch < res
          · rw [if_pos hright, if_pos hright]
            obtain ⟨hreq, hrwf⟩ := etchLateralChk_eq target res (x + lateral_etch) surface
              hright hsurf lateral_etch 0 _ hlwf
            rw [hreq]
            exact ⟨rfl, hrwf⟩
          · rw [if_neg hright, if_neg hright]
            exact ⟨rfl, hlwf⟩
        · rw [if_neg hleft, if_neg hleft, Option.some_bind]
          by_cases hright : x + lateral_etch < res
          · rw [if_pos hright, if_pos hright]
            obtain ⟨hreq, hrwf⟩ := etchLateralChk_eq target res (x + lateral_etch) surface
              hright hsurf lateral_etch 0 _ hdwf
            rw [hreq]
            exact ⟨rfl, hrwf⟩
          · rw [if_neg hright, if_neg hright]
            exact ⟨rfl, hdwf⟩
      · rw [if_neg hcond, if_neg hcond]
        exact ⟨rfl, hdwf⟩

theorem etchFoldChk_eq (rng : ℕ → ℚ) (sel : ℚ) (target : Material) (δ : ℚ)
    (res lateral_etch etch_pixels : ℕ) :
    ∀ (W : List ℕ) (st : Grid × ℕ × ℚ), (∀ x ∈ W, x < res) → WF res st.1 →
      W.foldlM (etchColumnChk rng sel target δ res lateral_etch etch_pixels) st =
        some (W.foldl (etchColumn rng sel target δ res lateral_etch etch_pixels) st) ∧
      WF res (W.foldl (etchColumn rng sel target δ res lateral_etch etch_pixels) st).1 := by
  intro W
  induction W with
  | nil => intro st _ hwf; exact ⟨Eq.refl _, hwf⟩
  | cons x W ih =>
    intro st hW hwf
    obtain ⟨heq, hwf'⟩ := etchColumnChk_eq rng sel target δ res lateral_etch etch_pixels
      st x (hW x (List.mem_cons_self x W)) hwf
    rw [List.foldlM_cons, heq, List.foldl_cons]
    show (some (etchColumn rng sel target δ res lateral_etch etch_pixels st x) >>=
        fun s2 => List.foldlM (etchColumnChk rng sel target δ res lateral_etch etch_pixels) s2 W) =
        _ ∧ _
    rw [show (some (etchColumn rng sel target δ res lateral_etch etch_pixels st x) >>=
        fun s2 => List.foldlM (etchColumnChk rng sel target δ res lateral_etch etch_pixels) s2 W) =
        List.foldlM (etchColumnChk rng sel target δ res lateral_etch etch_pixels)
          (etchColumn rng sel target δ res lateral_etch etch_pixels st x) W from rfl]
    exact ih _ (fun z hz => hW z (List.mem_cons_of_mem x hz)) hwf'

theorem etchFeatureRunChk_eq (p : ProcessParameters) (res : ℕ) (dx δ : ℚ)
    (g : Grid) (rng : ℕ → ℚ) (k : ℕ) (center_x width dt : ℚ) (target : Material)
    (hwf : WF res g) :
    etchFeatureRunChk p res dx δ g rng k center_x width dt target =
      some (etchFeatureRun p res dx δ g rng k center_x width dt target) ∧
    WF res (etchFeatureRun p res dx δ g rng k center_x width dt target).1 := by
  simp only [etchFeatureRunChk, etchFeatureRun]
  exact etchFoldChk_eq _ _ _ _ _ _ _ _ _
    (fun z hz => Nat.lt_of_lt_of_le (rangeFromTo_lt hz) (etchEndX_le res dx center_x width))
    hwf

/-- **C7.**  For every argument vector, the bounds-checked mirror of
`PlasmaEtcher.etch_feature` (in which every scalar grid read and write
fails on an out-of-range index) succeeds and computes exactly the value of
the unchecked embedding: all clipping and skipping guards of the source
keep every grid access inside `[0, resolution) × [0, resolution)`. -/
theorem C7_etch_feature_no_oob_access (w : DamasceneWafer) (rng : ℕ → ℚ)
    (k : ℕ) (center_x width target_depth dt : ℚ) (target : Material)
    (hwf : WF w.resolution w.materials) :
    PlasmaEtcher.etchFeatureChecked w rng k center_x width target_depth dt target =
      some (PlasmaEtcher.etch_feature w rng k center_x width target_depth dt target) := by
  rw [PlasmaEtcher.etchFeatureChecked, PlasmaEtcher.etch_feature,
    (etchFeatureRunChk_eq w.params w.resolution w.dx w.dy w.materials rng k
      center_x width dt target hwf).1]
  rfl

/-- Witness for `C7_etch_feature_no_oob_access` on a concrete 4×4 wafer. -/
theorem C7_etch_feature_no_oob_access_witness :
    WF wC2cex.resolution wC2cex.materials ∧
    PlasmaEtcher.etchFeatureChecked wC2cex rng0 0 2 4 2 1 Material.OXIDE =
      some (PlasmaEtcher.etch_feature wC2cex rng0 0 2 4 2 1 Material.OXIDE) :=
  ⟨⟨rfl, by decide⟩,
   C7_etch_feature_no_oob_access wC2cex rng0 0 2 4 2 1 Material.OXIDE ⟨rfl, by decide⟩⟩

/-! ### C4: the sidewall section of `deposit_conformal` never deposits -/

theorem pyIntNat_mul_le (tp : ℕ) (cov : ℚ) (hcov : cov ≤ 1) :
    pyIntNat ((tp : ℚ) * cov) ≤ tp := by
  rw [pyIntNat, pyInt]
  by_cases h : 0 ≤ (tp : ℚ) * cov
  · rw [if_pos h]
    have hle : (tp : ℚ) * cov ≤ (tp : ℚ) :=
      mul_le_of_le_one_right (Nat.cast_nonneg tp) hcov
    have h1 : ⌊(tp : ℚ) * cov⌋ ≤ ⌊(tp : ℚ)⌋ := Int.floor_le_floor hle
    have h2 : ⌊(tp : ℚ)⌋ = (tp : ℤ) := Int.floor_natCast tp
    have := Int.toNat_le_toNat (h2 ▸ h1)
    simpa using this
  · rw [if_neg h]
    push_neg at h
    have : ⌈(tp : ℚ) * cov⌉ ≤ 0 := Int.ceil_le.mpr (by push_cast; linarith)
    rw [Int.toNat_of_nonpos this]
    exact Nat.zero_le _

theorem depositTopFill_wf {res : ℕ} (material : Material) (x surface : ℕ) :
    ∀ (n dy : ℕ) (g : Grid), WF res g →
      WF res (depositTopFill material res x surface dy n g) := by
  intro n
  induction n with
  | zero => intro dy g hwf; exact hwf
  | succ n ih =>
    intro dy g hwf
    rw [depositTopFill]
    by_cases hy : surface + dy + 1 < res
    · rw [if_pos hy]
      exact ih (dy + 1) _ (hwf.setCellWF _ _ _)
    · rw [if_neg hy]
      exact ih (dy + 1) g hwf

theorem depositTopFill_low (material : Material) (res x surface : ℕ) :
    ∀ (n dy : ℕ) (g : Grid) (y' : ℕ), y' ≤ surface + dy →
      getCell (depositTopFill material res x surface dy n g) x y' =
        getCell g x y' := by
  intro n
  induction n with
  | zero => intro dy g y' _; rfl
  | succ n ih =>
    intro dy g y' hy'
    rw [depositTopFill]
    by_cases hy : surface + dy + 1 < res
    · rw [if_pos hy, ih (dy + 1) _ y' (by omega), getCell_setCell, if_neg]
      rintro ⟨-, rfl, -, -⟩
      omega
    · rw [if_neg hy]
      exact ih (dy + 1) g y' (by omega)

theorem depositTopFill_mat {res : ℕ} (material : Material) (x surface : ℕ)
    (hx : x < res) :
    ∀ (n dy : ℕ) (g : Grid), WF res g → ∀ y', surface + dy + 1 ≤ y' →
      y' < surface + dy + 1 + n → y' < res →
      getCell (depositTopFill material res x surface dy n g) x y' = material := by
  intro n
  induction n with
  | zero => intro dy g _ y' h1 h2 _; omega
  | succ n ih =>
    intro dy g hwf y' h1 h2 hres
    rw [depositTopFill]
    have hy : surface + dy + 1 < res := by omega
    rw [if_pos hy]
    rcases Nat.eq_or_lt_of_le h1 with heq | hlt
    · rw [depositTopFill_low material res x surface n (dy + 1) _ y' (by omega)]
      rw [← heq, getCell_setCell, if_pos]
      refine ⟨rfl, rfl, by rw [hwf.1]; exact hx, ?_⟩
      rw [hwf.colLen hx]
      omega
    · exact ih (dy + 1) _ (hwf.setCellWF _ _ _) y' (by omega) (by omega) hres

theorem depositSideFill_id (material : Material) (x surface : ℕ) :
    ∀ (n dy : ℕ) (g : Grid),
      (∀ i, dy ≤ i → i < dy + n → getCell g x (surface + i) ≠ Material.VACUUM) →
      depositSideFill material x surface dy n g = g := by
  intro n
  induction n with
  | zero => intro dy g _; rfl
  | succ n ih =>
    intro dy g hcand
    rw [depositSideFill]
    rw [if_neg (hcand dy le_rfl (by omega))]
    exact ih (dy + 1) g (fun i h1 h2 => hcand i (by omega) (by omega))

theorem depositColumn_eq_top {res : ℕ} (material : Material)
    (target_pixels sidewall_thickness : ℕ) (g : Grid) (x : ℕ)
    (hm : material ≠ Material.VACUUM)
    (hside : sidewall_thickness ≤ target_pixels)
    (hwf : WF res g) (hx : x < res) :
    depositColumn material res target_pixels sidewall_thickness g x =
      depositColumnTop material res target_pixels g x := by
  rw [depositColumn, depositColumnTop]
  cases hs : surfaceIdx? (g.getD x []) with
  | none => rfl
  | some surface =>
    simp only
    set g1 := depositTopFill material res x surface 0 target_pixels g with hg1
    have hwf1 : WF res g1 := depositTopFill_wf material x surface target_pixels 0 g hwf
    have hsurfcell : getCell g1 x surface ≠ Material.VACUUM := by
      rw [depositTopFill_low material res x surface target_pixels 0 g surface (by omega)]
      exact surfaceIdx?_getD_ne hs
    have hcand : ∀ (ns : ℕ), ns ≤ sidewall_thickness → surface + ns ≤ res →
        ∀ i, 0 ≤ i → i < 0 + ns → getCell g1 x (surface + i) ≠ Material.VACUUM := by
      intro ns hns hresb i _ hi
      rcases Nat.eq_zero_or_pos i with rfl | hipos
      · simpa using hsurfcell
      · have : getCell g1 x (surface + i) = material := by
          refine depositTopFill_mat material x surface hx target_pixels 0 g hwf
            (surface + i) (by omega) (by omega) (by omega)
        rw [this]
        exact hm
    by_cases hgate : surface < res - 10
    · rw [if_pos hgate]
      have hleftid :
          (if 0 < x then
            match surfaceIdx? (g1.getD (x - 1) []) with
            | some ls =>
              if surface < ls then
                depositSideFill material x surface 0
                  (min sidewall_thickness (ls - surface)) g1
              else g1
            | none => g1
          else g1) = g1 := by
        by_cases hx0 : 0 < x
        · rw [if_pos hx0]
          cases hls : surfaceIdx? (g1.getD (x - 1) []) with
          | none => rfl
          | some ls =>
            simp only
            by_cases hls2 : surface < ls
            · rw [if_pos hls2]
              have hlsres : ls < res := by
                have := surfaceIdx?_lt_length hls
                rw [hwf1.colLen (by omega)] at this
                exact this
              exact depositSideFill_id material x surface
                (min sidewall_thickness (ls - surface)) 0 g1
                (hcand _ (min_le_left _ _) (by omega))
            · rw [if_neg hls2]
        · rw [if_neg hx0]
      rw [hleftid]
      by_cases hxr : x < res - 1
      · rw [if_pos hxr]
        cases hrs : surfaceIdx? (g1.getD (x + 1) []) with
        | none => rfl
        | some rs =>
          simp only
          by_cases hrs2 : surface < rs
          · rw [if_pos hrs2]
            have hrsres : rs < res := by
              have := surfaceIdx?_lt_length hrs
              rw [hwf1.colLen (by omega)] at this
              exact this
            exact depositSideFill_id material x surface
              (min sidewall_thickness (rs - surface)) 0 g1
              (hcand _ (min_le_left _ _) (by omega))
          · rw [if_neg hrs2]
      · rw [if_neg hxr]
    · rw [if_neg hgate]

theorem depositColumnTop_wf {res : ℕ} (material : Material)
    (target_pixels : ℕ) (g : Grid) (x : ℕ) (hwf : WF res g) :
    WF res (depositColumnTop material res target_pixels g x) := by
  rw [depositColumnTop]
  cases hs : surfaceIdx? (g.getD x []) with
  | none => exact hwf
  | some surface => exact depositTopFill_wf material x surface target_pixels 0 g hwf

theorem depositFold_eq {res : ℕ} (material : Material)
    (target_pixels sidewall_thickness : ℕ)
    (hm : material ≠ Material.VACUUM)
    (hside : sidewall_thickness ≤ target_pixels) :
    ∀ (W : List ℕ) (g : Grid), (∀ x ∈ W, x < res) → WF res g →
      W.foldl (depositColumn material res target_pixels sidewall_thickness) g =
        W.foldl (depositColumnTop material res target_pixels) g ∧
      WF res (W.foldl (depositColumnTop material res target_pixels) g) := by
  intro W
  induction W with
  | nil => intro g _ hwf; exact ⟨rfl, hwf⟩
  | cons x W ih =>
    intro g hW hwf
    rw [List.foldl_cons, List.foldl_cons,
      depositColumn_eq_top material target_pixels sidewall_thickness g x hm hside
        hwf (hW x (List.mem_cons_self x W))]
    exact ih _ (fun z hz => hW z (List.mem_cons_of_mem x hz))
      (depositColumnTop_wf material target_pixels g x hwf)

/-- **C4.**  The sidewall section of `PVDDepositor.deposit_conformal` is dead
code: for any step coverage ≤ 1 (so in particular for 1.0 just as for 0.0),
any non-vacuum deposited material and any well-formed wafer, the call leaves
exactly the same grid as the top-surface-only deposit — its sidewall loops
only ever visit cells already filled by the top pass (or the surface cell
itself), so the vacuum test always fails and no sidewall cell is written.
This contradicts the claim (and the source's own docstring), under which
`step_coverage=1.0` must produce sidewall deposits as thick as the
top-surface deposit. -/
theorem C4_deposit_conformal_sidewall_dead (w : DamasceneWafer)
    (material : Material) (thickness step_coverage : ℚ)
    (hm : material ≠ Material.VACUUM) (hcov : step_coverage ≤ 1)
    (hwf : WF w.resolution w.materials) :
    PVDDepositor.deposit_conformal w material thickness step_coverage =
      depositTopOnly w material thickness := by
  rw [PVDDepositor.deposit_conformal, depositTopOnly]
  have hfold := @depositFold_eq w.resolution material
    (pyIntNat (thickness / w.dy))
    (pyIntNat ((pyIntNat (thickness / w.dy) : ℚ) * step_coverage))
    hm (pyIntNat_mul_le _ _ hcov)
    (List.range w.resolution) w.materials
    (fun z hz => List.mem_range.mp hz) hwf
  rw [hfold.1]

/-- Witness for `C4_deposit_conformal_sidewall_dead`: on the 16×16 trench
wafer `wC4`, a 3-cell barrier deposit with perfect step coverage 1.0 equals
the top-surface-only deposit (and hence also the coverage-0.0 deposit). -/
theorem C4_deposit_conformal_sidewall_dead_witness :
    Material.BARRIER ≠ Material.VACUUM ∧ (1 : ℚ) ≤ 1 ∧
    WF wC4.resolution wC4.materials ∧
    PVDDepositor.deposit_conformal wC4 Material.BARRIER 3 1 =
      depositTopOnly wC4 Material.BARRIER 3 ∧
    PVDDepositor.deposit_conformal wC4 Material.BARRIER 3 0 =
      depositTopOnly wC4 Material.BARRIER 3 :=
  ⟨by decide, le_rfl, ⟨rfl, by decide⟩,
   C4_deposit_conformal_sidewall_dead wC4 Material.BARRIER 3 1
     (by decide) le_rfl ⟨rfl, by decide⟩,
   C4_deposit_conformal_sidewall_dead wC4 Material.BARRIER 3 0
     (by decide) (by norm_num) ⟨rfl, by decide⟩⟩

/-! ### C3: `is_planar` -/

theorem foldl_max_spec (l : List ℚ) (a : ℚ) :
    a ≤ l.foldl max a ∧ ∀ x ∈ l, x ≤ l.foldl max a := by
  induction l generalizing a with
  | nil => exact ⟨le_rfl, by intro x hx; cases hx⟩
  | cons b t ih =>
    rw [List.foldl_cons]
    refine ⟨le_trans (le_max_left a b) (ih (max a b)).1, ?_⟩
    intro x hx
    rcases List.mem_cons.mp hx with rfl | hxt
    · exact le_trans (le_max_right a x) (ih (max a x)).1
    · exact (ih (max a b)).2 x hxt

theorem foldl_max_mem (l : List ℚ) (a : ℚ) :
    l.foldl max a = a ∨ l.foldl max a ∈ l := by
  induction l generalizing a with
  | nil => exact Or.inl rfl
  | cons b t ih =>
    rw [List.foldl_cons]
    rcases ih (max a b) with h | h
    · rcases max_choice a b with hm | hm
      · exact Or.inl (by rw [h, hm])
      · exact Or.inr (by rw [h, hm]; exact List.mem_cons_self b t)
    · exact Or.inr (List.mem_cons_of_mem b h)

theorem foldl_min_spec (l : List ℚ) (a : ℚ) :
    l.foldl min a ≤ a ∧ ∀ x ∈ l, l.foldl min a ≤ x := by
  induction l generalizing a with
  | nil => exact ⟨le_rfl, by intro x hx; cases hx⟩
  | cons b t ih =>
    rw [List.foldl_cons]
    refine ⟨le_trans (ih (min a b)).1 (min_le_left a b), ?_⟩
    intro x hx
    rcases List.mem_cons.mp hx with rfl | hxt
    · exact le_trans (ih (min a x)).1 (min_le_right a x)
    · exact (ih (min a b)).2 x hxt

theorem foldl_min_mem (l : List ℚ) (a : ℚ) :
    l.foldl min a = a ∨ l.foldl min a ∈ l := by
  induction l generalizing a with
  | nil => exact Or.inl rfl
  | cons b t ih =>
    rw [List.foldl_cons]
    rcases ih (min a b) with h | h
    · rcases min_choice a b with hm | hm
      · exact Or.inl (by rw [h, hm])
      · exact Or.inr (by rw [h, hm]; exact List.mem_cons_self b t)
    · exact Or.inr (List.mem_cons_of_mem b h)

theorem npMax_spec {l : List ℚ} (h : l ≠ []) :
    npMax l ∈ l ∧ ∀ x ∈ l, x ≤ npMax l := by
  constructor
  · rcases foldl_max_mem l (l.headD 0) with heq | hmem
    · rw [npMax, heq]
      cases l with
      | nil => exact absurd rfl h
      | cons b t => exact List.mem_cons_self b t
    · exact hmem
  · exact (foldl_max_spec l (l.headD 0)).2

theorem npMin_spec {l : List ℚ} (h : l ≠ []) :
    npMin l ∈ l ∧ ∀ x ∈ l, npMin l ≤ x := by
  constructor
  · rcases foldl_min_mem l (l.headD 0) with heq | hmem
    · rw [npMin, heq]
      cases l with
      | nil => exact absurd rfl h
      | cons b t => exact List.mem_cons_self b t
    · exact hmem
  · exact (foldl_min_spec l (l.headD 0)).2

/-- **C3.**  `CMPPolisher.is_planar(tolerance)` returns `True` exactly when
every pair of surface heights differs by strictly less than the tolerance —
that is, when the maximum minus the minimum surface height is strictly below
it.  The embedding is a pure function of the wafer: the source only reads
the grid (through `get_surface_height`) and performs no mutation. -/
theorem C3_is_planar_iff (w : DamasceneWafer) (tolerance : ℚ)
    (hres : 0 < w.resolution) :
    CMPPolisher.is_planar w tolerance = true ↔
      ∀ h1 ∈ w.get_surface_height, ∀ h2 ∈ w.get_surface_height,
        h1 - h2 < tolerance := by
  have hne : w.get_surface_height ≠ [] := by
    rw [DamasceneWafer.get_surface_height]
    intro hnil
    rw [List.map_eq_nil, List.range_eq_nil] at hnil
    omega
  rw [CMPPolisher.is_planar, decide_eq_true_iff]
  constructor
  · intro hlt h1 hm1 h2 hm2
    have hx := (npMax_spec hne).2 h1 hm1
    have hn := (npMin_spec hne).2 h2 hm2
    linarith
  · intro hall
    exact hall _ (npMax_spec hne).1 _ (npMin_spec hne).1

/-- Witness for `C3_is_planar_iff` on the single-column wafer `wC2wit`. -/
theorem C3_is_planar_iff_witness :
    0 < wC2wit.resolution ∧ CMPPolisher.is_planar wC2wit 5 = true :=
  ⟨by decide, (C3_is_planar_iff wC2wit 5 (by decide)).mpr (by decide)⟩

/-! ### C10: additive field invariants -/

theorem qGet_replicate (n : ℕ) (a : ℚ) (x y : ℕ) :
    qGet (List.replicate n (List.replicate n a)) x y a = a := by
  rw [qGet]
  cases hc : (List.replicate n (List.replicate n a)).get? x with
  | none =>
    have houter : (List.replicate n (List.replicate n a)).getD x [] = [] := by
      show ((List.replicate n (List.replicate n a)).get? x).getD [] = []
      rw [hc]; rfl
    rw [houter]; rfl
  | some row =>
    have hrow : row = List.replicate n a :=
      List.eq_of_mem_replicate (List.get?_mem hc)
    have houter : (List.replicate n (List.replicate n a)).getD x [] = row := by
      show ((List.replicate n (List.replicate n a)).get? x).getD [] = row
      rw [hc]; rfl
    rw [houter, hrow]
    cases hcy : (List.replicate n a).get? y with
    | none =>
      show ((List.replicate n a).get? y).getD a = a
      rw [hcy]; rfl
    | some v =>
      have hv : v = a := List.eq_of_mem_replicate (List.get?_mem hcy)
      show ((List.replicate n a).get? y).getD a = a
      rw [hcy, hv]; rfl

theorem npClip_bounds (q lo hi : ℚ) (h : lo ≤ hi) :
    lo ≤ npClip q lo hi ∧ npClip q lo hi ≤ hi :=
  ⟨le_max_left lo _, max_le h (min_le_left hi q)⟩

theorem qGet_map_clip (A : List (List ℚ)) (lo hi d : ℚ) (hlh : lo ≤ hi)
    (hd1 : lo ≤ d) (hd2 : d ≤ hi) (x y : ℕ) :
    lo ≤ qGet (A.map (List.map fun q => npClip q lo hi)) x y d ∧
    qGet (A.map (List.map fun q => npClip q lo hi)) x y d ≤ hi := by
  have hshape : qGet (A.map (List.map fun q => npClip q lo hi)) x y d = d ∨
      ∃ q, qGet (A.map (List.map fun q => npClip q lo hi)) x y d =
        npClip q lo hi := by
    rw [qGet]
    have houter : (A.map (List.map fun q => npClip q lo hi)).getD x [] =
        ((A.get? x).map (List.map fun q => npClip q lo hi)).getD [] := by
      show ((A.map (List.map fun q => npClip q lo hi)).get? x).getD [] = _
      rw [List.get?_map]
    rw [houter]
    cases hc : A.get? x with
    | none => exact Or.inl rfl
    | some row =>
      have hinner :
          (((some row).map (List.map fun q => npClip q lo hi)).getD []).getD y d =
            ((row.get? y).map fun q => npClip q lo hi).getD d := by
        show ((row.map fun q => npClip q lo hi).get? y).getD d = _
        rw [List.get?_map]
      rw [hinner]
      cases hcy : row.get? y with
      | none => exact Or.inl rfl
      | some v => exact Or.inr ⟨v, rfl⟩
  rcases hshape with h | ⟨q, h⟩
  · rw [h]; exact ⟨hd1, hd2⟩
  · rw [h]; exact npClip_bounds q lo hi hlh

/-- **C10.**  The suppressor field starts at 1 everywhere (and the
accelerator at 0); after every `_update_additives` call every suppressor
entry lies in `[0.1, 1]` and every accelerator entry in `[0, 10]` — in
particular the suppressor value read by `plate_step`'s rate computation is
never zero, so the `accelerator / suppressor` ratio is always
well-defined. -/
theorem C10_additive_field_invariants (res : ℕ) :
    (∀ x y, qGet (Electroplater.init res).suppressor x y 1 = 1) ∧
    (∀ x y, qGet (Electroplater.init res).accelerator x y 0 = 0) ∧
    ∀ (p : ProcessParameters) (δ : ℚ) (g : Grid) (dt : ℚ)
      (pl : Electroplater) (x y : ℕ),
      (0.1 : ℚ) ≤
        qGet (Electroplater.update_additives p res δ g dt pl).suppressor x y 1 ∧
      qGet (Electroplater.update_additives p res δ g dt pl).suppressor x y 1 ≤ 1 ∧
      (0 : ℚ) ≤
        qGet (Electroplater.update_additives p res δ g dt pl).accelerator x y 0 ∧
      qGet (Electroplater.update_additives p res δ g dt pl).accelerator x y 0 ≤ 10 ∧
      qGet (Electroplater.update_additives p res δ g dt pl).suppressor x y 1 ≠ 0 := by
  refine ⟨fun x y => qGet_replicate res 1 x y,
    fun x y => qGet_replicate res 0 x y, ?_⟩
  intro p δ g dt pl x y
  have hsupp : (0.1 : ℚ) ≤
      qGet (Electroplater.update_additives p res δ g dt pl).suppressor x y 1 ∧
      qGet (Electroplater.update_additives p res δ g dt pl).suppressor x y 1 ≤ 1 :=
    qGet_map_clip
      ((List.range res).foldl (updateAdditivesColumn p res δ dt g)
        (pl.accelerator, pl.suppressor)).2 0.1 1 1 (by norm_num) (by norm_num)
      le_rfl x y
  have hacc : (0 : ℚ) ≤
      qGet (Electroplater.update_additives p res δ g dt pl).accelerator x y 0 ∧
      qGet (Electroplater.update_additives p res δ g dt pl).accelerator x y 0 ≤ 10 :=
    qGet_map_clip
      ((List.range res).foldl (updateAdditivesColumn p res δ dt g)
        (pl.accelerator, pl.suppressor)).1 0 10 0 (by norm_num) le_rfl
      (by norm_num) x y
  refine ⟨hsupp.1, hsupp.2, hacc.1, hacc.2, ?_⟩
  have hge := hsupp.1
  intro h0
  rw [h0] at hge
  norm_num at hge

/-! ### C5: the electroplating step -/

theorem plateFill_wf {res : ℕ} (x surface : ℕ) :
    ∀ (n dy : ℕ) (g : Grid), WF res g →
      WF res (plateFill res x surface dy n g) := by
  intro n
  induction n with
  | zero => intro dy g hwf; exact hwf
  | succ n ih =>
    intro dy g hwf
    rw [plateFill]
    by_cases hc : surface + dy + 1 < res ∧
        getCell g x (surface + dy + 1) = Material.VACUUM
    · rw [if_pos hc]
      exact ih (dy + 1) _ (hwf.setCellWF _ _ _)
    · rw [if_neg hc]
      exact ih (dy + 1) g hwf

theorem plateFill_get {res : ℕ} (x surface : ℕ) (hx : x < res) :
    ∀ (n dy : ℕ) (g : Grid), WF res g → ∀ x' y',
      getCell (plateFill res x surface dy n g) x' y' =
        if x' = x ∧ surface + dy + 1 ≤ y' ∧ y' < surface + dy + 1 + n ∧
            y' < res ∧ getCell g x y' = Material.VACUUM
        then Material.COPPER else getCell g x' y' := by
  intro n
  induction n with
  | zero =>
    intro dy g hwf x' y'
    rw [plateFill, if_neg]
    rintro ⟨-, h1, h2, -⟩
    omega
  | succ n ih =>
    intro dy g hwf x' y'
    rw [plateFill]
    by_cases hcond : surface + dy + 1 < res ∧
        getCell g x (surface + dy + 1) = Material.VACUUM
    · rw [if_pos hcond]
      rw [ih (dy + 1) _ (hwf.setCellWF _ _ _) x' y']
      have hxg : x < g.length := by rw [hwf.1]; exact hx
      have hyg : surface + dy + 1 < (g.getD x []).length := by
        rw [hwf.colLen hx]; exact hcond.1
      by_cases hx' : x' = x
      · subst hx'
        by_cases hy' : y' = surface + dy + 1
        · subst hy'
          rw [if_neg (by rintro ⟨-, h, -⟩; omega)]
          rw [getCell_setCell, if_pos ⟨rfl, rfl, hxg, hyg⟩]
          rw [if_pos ⟨rfl, by omega, by omega, hcond.1, hcond.2⟩]
        · have hgy : getCell (setCell g x' (surface + dy + 1) Material.COPPER) x' y' =
              getCell g x' y' := by
            rw [getCell_setCell, if_neg]
            rintro ⟨-, h, -⟩
            exact hy' h.symm
          rw [hgy]
          refine if_congr ?_ rfl rfl
          constructor
          · rintro ⟨h1, h2, h3, h4, h5⟩
            exact ⟨h1, by omega, by omega, h4, h5⟩
          · rintro ⟨h1, h2, h3, h4, h5⟩
            refine ⟨h1, by omega, by omega, h4, h5⟩
      · rw [if_neg (fun h => hx' h.1), if_neg (fun h => hx' h.1)]
        rw [getCell_setCell, if_neg]
        rintro ⟨h, -⟩
        exact hx' h.symm
    · rw [if_neg hcond]
      rw [ih (dy + 1) g hwf x' y']
      refine if_congr ?_ rfl rfl
      constructor
      · rintro ⟨h1, h2, h3, h4, h5⟩
        exact ⟨h1, by omega, by omega, h4, h5⟩
      · rintro ⟨h1, h2, h3, h4, h5⟩
        rcases Nat.eq_or_lt_of_le h2 with heq | hlt
        · exact absurd (heq ▸ ⟨h4, h5⟩) hcond
        · exact ⟨h1, by omega, by omega, h4, h5⟩

/-- **C5.**  In every `Electroplater.plate_step` timestep the additive
fields are updated first and the deposition pass then runs against the
updated fields; and in the deposition pass, every column with a copper or
copper-seed surface grows by
`int(base_rate * (1 + plating_enhancement * depth_factor) *
(accelerator[surface,x] / suppressor[surface,x]) * dt / dy)` cells of
copper, filling exactly the vacuum cells directly above the surface up to
that extent (clipped at the resolution); all other cells are unchanged. -/
theorem C5_plate_step_contract :
    (∀ (w : DamasceneWafer) (pl : Electroplater) (dt : ℚ),
      Electroplater.plate_step w pl dt =
        (let pl2 := Electroplater.update_additives w.params w.resolution
          w.dy w.materials dt pl
        ({ w with
           materials := (List.range w.resolution).foldl
             (plateColumn w.params w.resolution w.dy dt pl2) w.materials },
         pl2))) ∧
    (∀ (p : ProcessParameters) (res : ℕ) (δ dt : ℚ) (pl : Electroplater)
      (g : Grid) (x srf : ℕ), WF res g → x < res →
      surfaceWhereCopper (g.getD x []) = some srf →
      ∀ x' y', getCell (plateColumn p res δ dt pl g x) x' y' =
        if x' = x ∧ srf + 1 ≤ y' ∧
           y' < srf + 1 + pyIntNat (p.plating_rate_base *
             (1.0 + p.plating_enhancement * depthFactor g res δ x srf) *
             (qGet pl.accelerator x srf 0 / qGet pl.suppressor x srf 1) *
             dt / δ) ∧
           y' < res ∧ getCell g x y' = Material.VACUUM
        then Material.COPPER else getCell g x' y') := by
  constructor
  · intro w pl dt
    rfl
  · intro p res δ dt pl g x srf hwf hx hsrf x' y'
    simp only [plateColumn, hsrf]
    rw [plateFill_get x srf hx _ 0 g hwf x' y']

/-- Witness for `C5_plate_step_contract` on the 2×2 state `gC5`/`plC5`:
the vacuum cell above the seed becomes copper. -/
theorem C5_plate_step_contract_witness :
    WF 2 gC5 ∧ 0 < 2 ∧ surfaceWhereCopper (gC5.getD 0 []) = some 0 ∧
    getCell (plateColumn pC5 2 1 1 plC5 gC5 0) 0 1 = Material.COPPER :=
  ⟨⟨rfl, by decide⟩, by decide, by decide,
   (C5_plate_step_contract.2 pC5 2 1 1 plC5 gC5 0 0 ⟨rfl, by decide⟩
     (by decide) (by decide) 0 1).trans (by decide)⟩

/-! ### Generic facts about the stage `while` loop -/

theorem processLoop_inv {σ : Type} (body : ℚ → σ → σ × Bool) (dt maxT : ℚ)
    (P : σ → Prop) (hbody : ∀ t s, P s → P (body t s).1) :
    ∀ (n : ℕ) (t : ℚ) (s : σ), P s → P (processLoop body dt maxT n t s) := by
  intro n
  induction n with
  | zero => intro t s h; exact h
  | succ n ih =>
    intro t s h
    simp only [processLoop]
    by_cases hc : t < maxT
    · rw [if_pos hc]
      by_cases hb : (body (t + dt) s).2 = true
      · rw [if_pos hb]
        exact hbody _ _ h
      · rw [if_neg hb]
        exact ih (t + dt) _ (hbody _ _ h)
    · rw [if_neg hc]
      exact h

theorem processLoop_stable {σ : Type} (body : ℚ → σ → σ × Bool)
    (dt maxT : ℚ) (hdt : 0 < dt) :
    ∀ (n m : ℕ) (t : ℚ) (s : σ), Nat.ceil ((maxT - t) / dt) ≤ n →
      Nat.ceil ((maxT - t) / dt) ≤ m →
      processLoop body dt maxT n t s = processLoop body dt maxT m t s := by
  have hdt' : dt ≠ 0 := ne_of_gt hdt
  have key : ∀ (t : ℚ) (kk : ℕ), Nat.ceil ((maxT - t) / dt) ≤ kk + 1 →
      Nat.ceil ((maxT - (t + dt)) / dt) ≤ kk := by
    intro t kk hk
    rw [Nat.ceil_le]
    have h1 : (maxT - t) / dt ≤ ((kk : ℚ) + 1) := by
      calc (maxT - t) / dt ≤ (Nat.ceil ((maxT - t) / dt) : ℚ) :=
            Nat.le_ceil _
        _ ≤ ((kk + 1 : ℕ) : ℚ) := by exact_mod_cast hk
        _ = (kk : ℚ) + 1 := by push_cast; ring
    have h2 : (maxT - (t + dt)) / dt = (maxT - t) / dt - 1 := by
      field_simp
      ring
    linarith
  intro n
  induction n with
  | zero =>
    intro m t s hn _
    have hnt : ¬ t < maxT := by
      intro hlt
      have hpos : 0 < (maxT - t) / dt := div_pos (by linarith) hdt
      have := Nat.ceil_pos.mpr hpos
      omega
    cases m with
    | zero => rfl
    | succ m' =>
      show processLoop body dt maxT 0 t s = processLoop body dt maxT (m' + 1) t s
      simp only [processLoop]
      rw [if_neg hnt]
  | succ n ih =>
    intro m t s hn hm
    by_cases hc : t < maxT
    · have hcpos : 0 < Nat.ceil ((maxT - t) / dt) :=
        Nat.ceil_pos.mpr (div_pos (by linarith) hdt)
      obtain ⟨m', rfl⟩ : ∃ m', m = m' + 1 := ⟨m - 1, by omega⟩
      simp only [processLoop]
      rw [if_pos hc, if_pos hc]
      by_cases hb : (body (t + dt) s).2 = true
      · rw [if_pos hb, if_pos hb]
      · rw [if_neg hb, if_neg hb]
        exact ih m' (t + dt) _ (key t n hn) (key t m' hm)
    · cases m with
      | zero =>
        show processLoop body dt maxT (n + 1) t s = processLoop body dt maxT 0 t s
        simp only [processLoop]
        rw [if_neg hc]
      | succ m' =>
        simp only [processLoop]
        rw [if_neg hc, if_neg hc]

/-! ### C8: stages never mutate the shared `ProcessParameters` -/

/-- **C8.**  No tool operation and no stage driver mutates the
`ProcessParameters` record: every field of `params` (at both the process and
the wafer level) is identical before and after each operation — the
embedding rebuilds only `materials`, `time`, `current_step`, the additive
fields and the random cursor, mirroring the write-free treatment of
`self.params` in the source. -/
theorem C8_process_parameters_immutable :
    (∀ (w : DamasceneWafer) (rng : ℕ → ℚ) (k : ℕ) (c wd td dt : ℚ)
      (tm : Material),
      (PlasmaEtcher.etch_feature w rng k c wd td dt tm).1.params = w.params) ∧
    (∀ (w : DamasceneWafer) (m : Material) (th cov : ℚ),
      (PVDDepositor.deposit_conformal w m th cov).params = w.params) ∧
    (∀ (w : DamasceneWafer) (pl : Electroplater) (dt : ℚ),
      (Electroplater.plate_step w pl dt).1.params = w.params) ∧
    (∀ (w : DamasceneWafer) (dt : ℚ),
      (CMPPolisher.polish_step w dt).params = w.params) ∧
    (∀ (c : ℚ) (st : DamasceneProcess),
      (DamasceneProcess._etch_via c st).params = st.params ∧
      (DamasceneProcess._etch_via c st).wafer.params = st.wafer.params) ∧
    (∀ (c : ℚ) (st : DamasceneProcess),
      (DamasceneProcess._etch_trench c st).params = st.params ∧
      (DamasceneProcess._etch_trench c st).wafer.params = st.wafer.params) ∧
    (∀ st : DamasceneProcess,
      (DamasceneProcess._deposit_barrier st).params = st.params ∧
      (DamasceneProcess._deposit_barrier st).wafer.params = st.wafer.params) ∧
    (∀ st : DamasceneProcess,
      (DamasceneProcess._deposit_seed st).params = st.params ∧
      (DamasceneProcess._deposit_seed st).wafer.params = st.wafer.params) ∧
    (∀ st : DamasceneProcess,
      (DamasceneProcess._electroplate_copper st).params = st.params ∧
      (DamasceneProcess._electroplate_copper st).wafer.params = st.wafer.params) ∧
    (∀ st : DamasceneProcess,
      (DamasceneProcess._perform_cmp st).params = st.params ∧
      (DamasceneProcess._perform_cmp st).wafer.params = st.wafer.params) := by
  refine ⟨fun w rng k c wd td dt tm => rfl, fun w m th cov => rfl,
    fun w pl dt => rfl, fun w dt => rfl, ?_, ?_, ?_, ?_, ?_, ?_⟩
  · intro c st
    exact processLoop_inv (viaBody c) 0.1 20.0
      (fun s => s.params = st.params ∧ s.wafer.params = st.wafer.params)
      (fun t s hs => hs) _ 0 st ⟨rfl, rfl⟩
  · intro c st
    exact processLoop_inv (trenchBody c) 0.1 10.0
      (fun s => s.params = st.params ∧ s.wafer.params = st.wafer.params)
      (fun t s hs => hs) _ 0 st ⟨rfl, rfl⟩
  · intro st
    exact ⟨rfl, rfl⟩
  · intro st
    exact ⟨rfl, rfl⟩
  · intro st
    exact processLoop_inv plateBody 0.01 30.0
      (fun s => s.params = st.params ∧ s.wafer.params = st.wafer.params)
      (fun t s hs => hs) _ 0 st ⟨rfl, rfl⟩
  · intro st
    exact processLoop_inv cmpBody 0.05 20.0
      (fun s => s.params = st.params ∧ s.wafer.params = st.wafer.params)
      (fun t s hs => hs) _ 0 st ⟨rfl, rfl⟩

/-! ### C9: every stage loop is bounded -/

/-- **C9.**  Each stage driver's `while total_time < max_time` loop advances
`total_time` by its fixed positive `dt` per iteration and therefore runs at
most `max_time / dt` iterations (200, 100, 3000 and 400 respectively)
regardless of whether the physical target was met: giving the loop any fuel
beyond that bound computes exactly the same state as the driver itself. -/
theorem C9_stage_loops_bounded :
    (∀ (c : ℚ) (st : DamasceneProcess) (n : ℕ), 200 ≤ n →
      processLoop (viaBody c) 0.1 20.0 n 0 st =
        DamasceneProcess._etch_via c st) ∧
    (∀ (c : ℚ) (st : DamasceneProcess) (n : ℕ), 100 ≤ n →
      processLoop (trenchBody c) 0.1 10.0 n 0 st =
        DamasceneProcess._etch_trench c st) ∧
    (∀ (st : DamasceneProcess) (n : ℕ), 3000 ≤ n →
      processLoop plateBody 0.01 30.0 n 0 st =
        DamasceneProcess._electroplate_copper st) ∧
    (∀ (st : DamasceneProcess) (n : ℕ), 400 ≤ n →
      processLoop cmpBody 0.05 20.0 n 0 st =
        DamasceneProcess._perform_cmp st) := by
  have hvia : Nat.ceil (((20.0 : ℚ) - 0) / 0.1) = 200 := by norm_num
  have hviaF : Nat.ceil ((20.0 : ℚ) / 0.1) = 200 := by norm_num
  have htr : Nat.ceil (((10.0 : ℚ) - 0) / 0.1) = 100 := by norm_num
  have htrF : Nat.ceil ((10.0 : ℚ) / 0.1) = 100 := by norm_num
  have hpl : Nat.ceil (((30.0 : ℚ) - 0) / 0.01) = 3000 := by norm_num
  have hplF : Nat.ceil ((30.0 : ℚ) / 0.01) = 3000 := by norm_num
  have hcm : Nat.ceil (((20.0 : ℚ) - 0) / 0.05) = 400 := by norm_num
  have hcmF : Nat.ceil ((20.0 : ℚ) / 0.05) = 400 := by norm_num
  refine ⟨?_, ?_, ?_, ?_⟩
  · intro c st n hn
    exact processLoop_stable (viaBody c) 0.1 20.0 (by norm_num) n
      (Nat.ceil ((20.0 : ℚ) / 0.1)) 0 st (by rw [hvia]; exact hn)
      (by rw [hvia, hviaF])
  · intro c st n hn
    exact processLoop_stable (trenchBody c) 0.1 10.0 (by norm_num) n
      (Nat.ceil ((10.0 : ℚ) / 0.1)) 0 st (by rw [htr]; exact hn)
      (by rw [htr, htrF])
  · intro st n hn
    exact processLoop_stable plateBody 0.01 30.0 (by norm_num) n
      (Nat.ceil ((30.0 : ℚ) / 0.01)) 0 st (by rw [hpl]; exact hn)
      (by rw [hpl, hplF])
  · intro st n hn
    exact processLoop_stable cmpBody 0.05 20.0 (by norm_num) n
      (Nat.ceil ((20.0 : ℚ) / 0.05)) 0 st (by rw [hcm]; exact hn)
      (by rw [hcm, hcmF])

/-- Witness for `C9_stage_loops_bounded` at the exact fuel bounds on the
default initial process state. -/
theorem C9_stage_loops_bounded_witness :
    200 ≤ 200 ∧
    processLoop (viaBody 1) 0.1 20.0 200 0
        (DamasceneProcess.init defaultParams rng0) =
      DamasceneProcess._etch_via 1 (DamasceneProcess.init defaultParams rng0) ∧
    processLoop (trenchBody 1) 0.1 10.0 100 0
        (DamasceneProcess.init defaultParams rng0) =
      DamasceneProcess._etch_trench 1 (DamasceneProcess.init defaultParams rng0) ∧
    processLoop plateBody 0.01 30.0 3000 0
        (DamasceneProcess.init defaultParams rng0) =
      DamasceneProcess._electroplate_copper
        (DamasceneProcess.init defaultParams rng0) ∧
    processLoop cmpBody 0.05 20.0 400 0
        (DamasceneProcess.init defaultParams rng0) =
      DamasceneProcess._perform_cmp (DamasceneProcess.init defaultParams rng0) :=
  ⟨le_rfl,
   C9_stage_loops_bounded.1 1 (DamasceneProcess.init defaultParams rng0) 200 le_rfl,
   C9_stage_loops_bounded.2.1 1 (DamasceneProcess.init defaultParams rng0) 100 le_rfl,
   C9_stage_loops_bounded.2.2.1 (DamasceneProcess.init defaultParams rng0) 3000 le_rfl,
   C9_stage_loops_bounded.2.2.2 (DamasceneProcess.init defaultParams rng0) 400 le_rfl⟩

/-! ### C1: the full default process runs its 8 stages in order -/

theorem foldl_wf {res : ℕ} (f : Grid → ℕ → Grid)
    (hf : ∀ g x, WF res g → WF res (f g x)) :
    ∀ (W : List ℕ) (g : Grid), WF res g → WF res (W.foldl f g) := by
  intro W
  induction W with
  | nil => intro g hg; exact hg
  | cons x W ih =>
    intro g hg
    rw [List.foldl_cons]
    exact ih _ (hf g x hg)

theorem depositSideFill_wf {res : ℕ} (material : Material) (x surface : ℕ) :
    ∀ (n dy : ℕ) (g : Grid), WF res g →
      WF res (depositSideFill material x surface dy n g) := by
  intro n
  induction n with
  | zero => intro dy g hg; exact hg
  | succ n ih =>
    intro dy g hg
    rw [depositSideFill]
    by_cases hc : getCell g x (surface + dy) = Material.VACUUM
    · rw [if_pos hc]
      exact ih (dy + 1) _ (hg.setCellWF _ _ _)
    · rw [if_neg hc]
      exact ih (dy + 1) g hg

theorem depositColumn_wf {res : ℕ} (material : Material)
    (target_pixels sidewall_thickness : ℕ) (g : Grid) (x : ℕ)
    (hg : WF res g) :
    WF res (depositColumn material res target_pixels sidewall_thickness g x) := by
  rw [depositColumn]
  cases hs : surfaceIdx? (g.getD x []) with
  | none => exact hg
  | some surface =>
    simp only
    have h1 : WF res (depositTopFill material res x surface 0 target_pixels g) :=
      depositTopFill_wf material x surface target_pixels 0 g hg
    by_cases hgate : surface < res - 10
    · rw [if_pos hgate]
      set g1 := depositTopFill material res x surface 0 target_pixels g
      have h2 : WF res (if 0 < x then
          match surfaceIdx? (g1.getD (x - 1) []) with
          | some ls =>
            if surface < ls then
              depositSideFill material x surface 0
                (min sidewall_thickness (ls - surface)) g1
            else g1
          | none => g1
        else g1) := by
        by_cases hx0 : 0 < x
        · rw [if_pos hx0]
          cases hls : surfaceIdx? (g1.getD (x - 1) []) with
          | none => exact h1
          | some ls =>
            simp only
            by_cases hls2 : surface < ls
            · rw [if_pos hls2]
              exact depositSideFill_wf material x surface _ 0 g1 h1
            · rw [if_neg hls2]
              exact h1
        · rw [if_neg hx0]
          exact h1
      by_cases hxr : x < res - 1
      · rw [if_pos hxr]
        cases hrs : surfaceIdx? ((if 0 < x then
            match surfaceIdx? (g1.getD (x - 1) []) with
            | some ls =>
              if surface < ls then
                depositSideFill material x surface 0
                  (min sidewall_thickness (ls - surface)) g1
              else g1
            | none => g1
          else g1).getD (x + 1) []) with
        | none => exact h2
        | some rs =>
          simp only
          by_cases hrs2 : surface < rs
          · rw [if_pos hrs2]
            exact depositSideFill_wf material x surface _ 0 _ h2
          · rw [if_neg hrs2]
            exact h2
      · rw [if_neg hxr]
        exact h2
    · rw [if_neg hgate]
      exact h1

theorem deposit_conformal_wf (w : DamasceneWafer) (material : Material)
    (thickness step_coverage : ℚ) (hwf : WF w.resolution w.materials) :
    WF w.resolution (PVDDepositor.deposit_conformal w material thickness
      step_coverage).materials :=
  foldl_wf _ (fun g x hg => depositColumn_wf material _ _ g x hg) _ _ hwf

theorem plateColumn_wf {res : ℕ} (p : ProcessParameters) (δ dt : ℚ)
    (pl : Electroplater) (g : Grid) (x : ℕ) (hg : WF res g) :
    WF res (plateColumn p res δ dt pl g x) := by
  rw [plateColumn]
  cases hs : surfaceWhereCopper (g.getD x []) with
  | none => exact hg
  | some surface => exact plateFill_wf x surface _ 0 g hg

theorem plate_step_wf (w : DamasceneWafer) (pl : Electroplater) (dt : ℚ)
    (hwf : WF w.resolution w.materials) :
    WF w.resolution (Electroplater.plate_step w pl dt).1.materials :=
  foldl_wf _ (fun g x hg => plateColumn_wf _ _ _ _ g x hg) _ _ hwf

theorem cmpRemove_wf {res : ℕ} (x surface : ℕ) :
    ∀ (n dy : ℕ) (g : Grid), WF res g → WF res (cmpRemove x surface dy n g) := by
  intro n
  induction n with
  | zero => intro dy g hg; exact hg
  | succ n ih =>
    intro dy g hg
    rw [cmpRemove]
    by_cases hc : dy ≤ surface
    · rw [if_pos hc]
      exact ih (dy + 1) _ (hg.setCellWF _ _ _)
    · rw [if_neg hc]
      exact ih (dy + 1) g hg

theorem polishColumn_wf {res : ℕ} (p : ProcessParameters) (δ dt : ℚ)
    (pressure : List ℚ) (g : Grid) (x : ℕ) (hg : WF res g) :
    WF res (polishColumn p res δ dt pressure g x) := by
  rw [polishColumn]
  cases hs : surfaceIdx? (g.getD x []) with
  | none => exact hg
  | some surface => exact cmpRemove_wf x surface _ 0 g hg

theorem polish_step_wf (w : DamasceneWafer) (dt : ℚ)
    (hwf : WF w.resolution w.materials) :
    WF w.resolution (CMPPolisher.polish_step w dt).materials :=
  foldl_wf _ (fun g x hg => polishColumn_wf _ _ _ _ g x hg) _ _ hwf

theorem etch_feature_wf (w : DamasceneWafer) (rng : ℕ → ℚ) (k : ℕ)
    (c wd td dt : ℚ) (tm : Material) (hwf : WF w.resolution w.materials) :
    WF w.resolution (PlasmaEtcher.etch_feature w rng k c wd td dt tm).1.materials :=
  (etchFeatureRunChk_eq w.params w.resolution w.dx w.dy w.materials rng k
    c wd dt tm hwf).2

/-- The invariant carried through the pipeline of C1. -/
def WFP (st : DamasceneProcess) : Prop :=
  st.wafer.resolution = 500 ∧ WF 500 st.wafer.materials

theorem WFP.wfRes {st : DamasceneProcess} (h : WFP st) :
    WF st.wafer.resolution st.wafer.materials := by
  rw [h.1]
  exact h.2

theorem viaBody_wfp (c t : ℚ) (s : DamasceneProcess) (hs : WFP s) :
    WFP (viaBody c t s).1 :=
  ⟨hs.1, hs.1 ▸ etch_feature_wf s.wafer s.rng s.rngIdx c s.params.via_width
    (s.params.bottom_oxide + s.params.nitride_etch_stop) 0.1 Material.OXIDE
    hs.wfRes⟩

theorem trenchBody_wfp (c t : ℚ) (s : DamasceneProcess) (hs : WFP s) :
    WFP (trenchBody c t s).1 :=
  ⟨hs.1, hs.1 ▸ etch_feature_wf s.wafer s.rng s.rngIdx c s.params.trench_width
    s.params.trench_depth 0.1 Material.OXIDE hs.wfRes⟩

theorem plateBody_wfp (t : ℚ) (s : DamasceneProcess) (hs : WFP s) :
    WFP (plateBody t s).1 :=
  ⟨hs.1, hs.1 ▸ plate_step_wf s.wafer s.plater 0.01 hs.wfRes⟩

theorem cmpBody_wfp (t : ℚ) (s : DamasceneProcess) (hs : WFP s) :
    WFP (cmpBody t s).1 :=
  ⟨hs.1, hs.1 ▸ polish_step_wf s.wafer 0.05 hs.wfRes⟩

theorem setStep_wfp (nm : String) (s : DamasceneProcess) (hs : WFP s) :
    WFP (setStep nm s) := hs

theorem runStep_fold_names :
    ∀ (steps : List (String × Option (DamasceneProcess → DamasceneProcess)))
      (pr : List String × DamasceneProcess),
      (steps.foldl runStep pr).1 = pr.1 ++ steps.map Prod.fst := by
  intro steps
  induction steps with
  | nil => intro pr; simp
  | cons x steps ih =>
    intro pr
    rw [List.foldl_cons, ih]
    simp [runStep]

theorem runStep_fold_wfp :
    ∀ (steps : List (String × Option (DamasceneProcess → DamasceneProcess)))
      (pr : List String × DamasceneProcess),
      (∀ x ∈ steps, ∀ s, WFP s →
        WFP (match x.2 with
             | none => setStep x.1 s
             | some f => f (setStep x.1 s))) →
      WFP pr.2 → WFP (steps.foldl runStep pr).2 := by
  intro steps
  induction steps with
  | nil => intro pr _ h; exact h
  | cons x steps ih =>
    intro pr hsteps h
    rw [List.foldl_cons]
    refine ih _ (fun z hz => hsteps z (List.mem_cons_of_mem x hz)) ?_
    exact hsteps x (List.mem_cons_self x steps) pr.2 h

theorem processSteps_wfp (p : ProcessParameters) :
    ∀ x ∈ processSteps p, ∀ s, WFP s →
      WFP (match x.2 with
           | none => setStep x.1 s
           | some f => f (setStep x.1 s)) := by
  intro x hx s hs
  rw [processSteps] at hx
  simp only [List.mem_cons, List.not_mem_nil, or_false] at hx
  have hset : WFP (setStep x.1 s) := setStep_wfp x.1 s hs
  rcases hx with rfl | rfl | rfl | rfl | rfl | rfl | rfl | rfl
  · exact hset
  · exact processLoop_inv _ _ _ WFP (fun t s' hs' => viaBody_wfp _ t s' hs')
      _ 0 _ hset
  · exact processLoop_inv _ _ _ WFP (fun t s' hs' => trenchBody_wfp _ t s' hs')
      _ 0 _ hset
  · exact ⟨hset.1, hset.1 ▸ deposit_conformal_wf
      (setStep "Barrier Deposition" s).wafer Material.BARRIER
      (setStep "Barrier Deposition" s).params.barrier_thickness
      (setStep "Barrier Deposition" s).params.barrier_step_coverage hset.wfRes⟩
  · exact ⟨hset.1, hset.1 ▸ deposit_conformal_wf
      (setStep "Seed Layer Deposition" s).wafer Material.COPPER_SEED
      (setStep "Seed Layer Deposition" s).params.seed_thickness
      (setStep "Seed Layer Deposition" s).params.seed_step_coverage hset.wfRes⟩
  · exact processLoop_inv _ _ _ WFP (fun t s' hs' => plateBody_wfp t s' hs')
      _ 0 _ hset
  · exact processLoop_inv _ _ _ WFP (fun t s' hs' => cmpBody_wfp t s' hs')
      _ 0 _ hset
  · exact hset

theorem init_wfp (params : ProcessParameters) (rng : ℕ → ℚ) :
    WFP (DamasceneProcess.init params rng) := by
  refine ⟨rfl, ?_, ?_⟩
  · show (List.replicate 500 ((List.range 500).map (initCell _ _ _))).length = 500
    rw [List.length_replicate]
  · intro c hc
    have hc2 : c ∈ List.replicate 500 ((List.range 500).map (initCell _ _ _)) := hc
    rw [List.eq_of_mem_replicate hc2]
    rw [List.length_map, List.length_range]

/-- **C1.**  Running the embedded `run_full_process` (the `animation=False`
static path) from the default-parameter initial state executes exactly the 8
named stages in the fixed source order, for every random stream; the run is
a total function (each stage loop carries the explicit iteration bound of
C9), and the final wafer grid is still a well-formed 500×500 matrix — every
write of every stage landed inside the grid (cf. C7), so no indexing error
can occur along the way. -/
theorem C1_run_full_process_stages (rng : ℕ → ℚ) :
    (DamasceneProcess.run_full_process
        (DamasceneProcess.init defaultParams rng)).1 =
      ["Initial State", "Via Etch", "Trench Etch", "Barrier Deposition",
       "Seed Layer Deposition", "Copper Electroplating", "CMP Polish",
       "Final Structure"] ∧
    (DamasceneProcess.run_full_process
        (DamasceneProcess.init defaultParams rng)).2.wafer.resolution = 500 ∧
    WF 500 (DamasceneProcess.run_full_process
        (DamasceneProcess.init defaultParams rng)).2.wafer.materials := by
  have hwfp : WFP (DamasceneProcess.run_full_process
      (DamasceneProcess.init defaultParams rng)).2 := by
    rw [DamasceneProcess.run_full_process, _run_static_process]
    exact runStep_fold_wfp _ _ (processSteps_wfp _)
      (init_wfp defaultParams rng)
  refine ⟨?_, hwfp.1, hwfp.2⟩
  rw [DamasceneProcess.run_full_process, _run_static_process,
    runStep_fold_names]
  rfl

end Damascene

/-! ### C6: the Deal-Grove solution returns the initial oxide at t = 0 -/

namespace DealGrove

theorem calc_A_pos (p : OxidationParameters) (hp : 0 < p.pressure) :
    0 < (calcDealGroveCoefficients p).A := by
  obtain ⟨T, amb, pr, orn, x0⟩ := p
  cases amb <;>
    · simp only [calcDealGroveCoefficients]
      exact mul_pos (mul_pos (by norm_num) (Real.exp_pos _)) hp

theorem calc_B_pos (p : OxidationParameters) (hp : 0 < p.pressure) :
    0 < (calcDealGroveCoefficients p).B := by
  obtain ⟨T, amb, pr, orn, x0⟩ := p
  cases amb <;> cases orn <;>
    · simp only [calcDealGroveCoefficients]
      exact mul_pos (mul_pos (mul_pos (by norm_num) (Real.exp_pos _)) hp)
        (by norm_num)

theorem calc_tau_eq (p : OxidationParameters) :
    (calcDealGroveCoefficients p).tau =
      if 0 < p.initial_oxide then
        (p.initial_oxide ^ 2 +
            (calcDealGroveCoefficients p).A * p.initial_oxide) /
          (calcDealGroveCoefficients p).B
      else 0.0 := rfl

/-- **C6.**  For every `OxidationParameters` with `initial_oxide ≥ 0` and a
positive pressure, the analyzer's `oxide_thickness(0)` equals the initial
oxide thickness exactly: `tau = (x_i² + A·x_i)/B` makes the discriminant
`(A + 2·x_i)²`, and the quadratic-formula branch returns `x_i`. -/
theorem C6_oxide_thickness_initial (p : OxidationParameters)
    (hx : 0 ≤ p.initial_oxide) (hp : 0 < p.pressure) :
    analyzerOxideThickness p 0 = p.initial_oxide := by
  have hA := calc_A_pos p hp
  have hB := calc_B_pos p hp
  simp only [analyzerOxideThickness, oxide_thickness]
  rw [calc_tau_eq]
  have h00 : (0.0 : ℝ) = 0 := by norm_num
  have h20 : (2.0 : ℝ) = 2 := by norm_num
  rw [h00, h20]
  set A := (calcDealGroveCoefficients p).A with hAdef
  set B := (calcDealGroveCoefficients p).B with hBdef
  set x := p.initial_oxide with hxdef
  rcases lt_or_eq_of_le hx with hxpos | hx0
  · rw [if_pos hxpos]
    have hdisc : A ^ 2 + 4 * B * (0 + (x ^ 2 + A * x) / B) =
        (A + 2 * x) ^ 2 := by
      field_simp
      ring
    rw [hdisc, if_neg (not_lt.mpr (sq_nonneg _)),
      Real.sqrt_sq (by linarith : (0:ℝ) ≤ A + 2 * x)]
    have hval : (-A + (A + 2 * x)) / 2 = x := by ring
    rw [hval]
    exact max_eq_right (le_of_lt hxpos)
  · rw [← hx0, if_neg (lt_irrefl (0:ℝ))]
    have hdisc : A ^ 2 + 4 * B * (0 + 0) = A ^ 2 := by ring
    rw [hdisc, if_neg (not_lt.mpr (sq_nonneg _)), Real.sqrt_sq hA.le]
    have hval : (-A + A) / 2 = (0:ℝ) := by ring
    rw [hval]
    exact max_eq_right le_rfl

/-- Witness for C6: on the concrete parameters `pC6` (1100 K, one unit of
initial oxide, default pressure 1) the hypotheses hold and the t = 0
thickness is the initial one. -/
theorem C6_oxide_thickness_initial_witness :
    (0:ℝ) ≤ pC6.initial_oxide ∧ (0:ℝ) < pC6.pressure ∧
      analyzerOxideThickness pC6 0 = pC6.initial_oxide :=
  ⟨by norm_num [pC6], by norm_num [pC6],
    C6_oxide_thickness_initial pC6 (by norm_num [pC6]) (by norm_num [pC6])⟩

end DealGrove
